import Mathlib

/-!
# strmath: addition and subtraction of arbitrarily long decimal integers

A shallow embedding of `strmath.c`.  A big integer is an array of
`unsigned long long` limbs in base `10^MAGNITUDE`, least significant first,
whose last element is the sign limb.  An array together with its length is a
`List Nat`; C strings are `List Char` (without the terminating NUL); what
`print_big_int` writes to standard output is the `List Char` it returns.
Arithmetic on `unsigned long long` is arithmetic on `Nat` reduced modulo
`2^64`.

The arithmetic functions are given twice.  `add_big_ints`, `complement_big_int`,
`subtract_big_ints` and `print_big_int` give the limbs computed and the
characters handed to `printf`, taking every write to land in the array it is
meant for.  `add_big_ints_checked`, `complement_big_int_checked`,
`subtract_big_ints_checked` and `print_big_int_checked` follow the allocations
of the code and return `none` at the first read or write outside a block.
-/

namespace Strmath

/-! ## Definitions translated from `strmath.c` -/

/-- `const int MAGNITUDE = 18;` -/
def MAGNITUDE : Nat := 18

/-- Number of values of an `unsigned long long`. -/
def ULL : Nat := 2 ^ 64

/-- The libc predicate `isdigit` in the C locale: the characters `'0'`..`'9'`. -/
def isdigit (c : Char) : Bool := decide (48 ≤ c.toNat ∧ c.toNat ≤ 57)

/-- `is_digit_sequence(str)`: walks the string up to the NUL and returns false
at the first character that is not a digit. -/
def is_digit_sequence : List Char → Bool
  | [] => true
  | c :: str => if !isdigit c then false else is_digit_sequence str

/-- The loop of `power_of_ten`: `r *= 10`, the given number of times, in
`unsigned long long`. -/
def power_of_ten_loop : Nat → Nat → Nat
  | 0, r => r
  | k + 1, r => power_of_ten_loop k (r * 10 % ULL)

/-- `power_of_ten(n)`, for `n >= 0`. -/
def power_of_ten (n : Nat) : Nat := power_of_ten_loop n 1

/-- Value of a decimal digit character. -/
def digitValue (c : Char) : Nat := c.toNat - 48

/-- The integer a string of decimal digits denotes. -/
def decimalValue (s : List Char) : Nat :=
  s.foldl (fun acc c => acc * 10 + digitValue c) 0

/-- `sscanf(chunk, "%lld", &x)` on a chunk of decimal digits: the value read.
`to_big_integer` only calls it on chunks of at most `MAGNITUDE` characters of a
string it assumes to hold digits only, so the value fits a `long long`. -/
def sscanf_lld (chunk : List Char) : Nat := decimalValue chunk

/-- The loop of `to_big_integer`.  The first argument is the string, the second
the number of iterations left (`num_bigits - j`), the third the index `i`.
Each iteration writes a NUL at `i`, moves `i` back by `MAGNITUDE` (not below
`0`) and scans the characters from the new `i` up to that NUL. -/
def to_big_integer_loop (digit_seq : List Char) : Nat → Nat → List Nat
  | 0, _ => []
  | k + 1, i =>
    let i' := if i < MAGNITUDE then 0 else i - MAGNITUDE
    sscanf_lld ((digit_seq.take i).drop i') :: to_big_integer_loop digit_seq k i'

/-- `to_big_integer(str, &n)`: the returned array; `*n` is its length. -/
def to_big_integer (str : List Char) : List Nat :=
  let len := str.length
  let num_bigits := if len % MAGNITUDE = 0 then len / MAGNITUDE else len / MAGNITUDE + 1
  to_big_integer_loop str num_bigits len ++ [0]

/-- The main loop of `add_big_ints`.  Arguments: the operands, `max_digit`,
the number of iterations left (`result_length - i`), the index `i` and the
carry.  Returns `sum[i], sum[i+1], ...`. -/
def add_loop (op1 op2 : List Nat) (max_digit : Nat) : Nat → Nat → Nat → List Nat
  | 0, _, _ => []
  | k + 1, i, carry =>
    let a := if i ≥ op1.length then 0 else op1.getD i 0
    let b := if i ≥ op2.length then 0 else op2.getD i 0
    let result := (a + b + carry) % ULL
    if result ≥ max_digit then
      (result - max_digit) :: add_loop op1 op2 max_digit k (i + 1) 1
    else
      result :: add_loop op1 op2 max_digit k (i + 1) 0

/-- `add_big_ints(op1, op1_len, op2, op2_len, &sum_len)`, the limbs computed.
When the last limb computed is `1` the array is meant to grow by one limb, set
to `0`; here the write `sum[result_length-1] = 0` is taken to land, although
the `realloc` before it is given a byte count: `add_big_ints_checked` follows
the allocation, and the two agree whenever this branch is not taken.  With two
empty operands the test reads `sum[-1]`. -/
def add_big_ints (op1 op2 : List Nat) : Option (List Nat) :=
  let result_length := if op1.length > op2.length then op1.length else op2.length
  let max_digit := power_of_ten MAGNITUDE
  let sum := add_loop op1 op2 max_digit result_length 0 0
  if result_length = 0 then none
  else if sum.getD (result_length - 1) 0 = 1 then some (sum ++ [0])
  else some sum

/-- `complement_big_int(b, n, &result_len)`: every limb is replaced by
`max_digit - b[i]` (in `unsigned long long`), then the two-limb big integer
`one = {1, 0}` is added. -/
def complement_big_int (b : List Nat) : Option (List Nat) :=
  let max_digit := (power_of_ten MAGNITUDE + ULL - 1) % ULL
  let complement := b.map (fun x => (max_digit + ULL - x) % ULL)
  add_big_ints complement [1, 0]

/-- `subtract_big_ints(minuend, min_len, subtrahend, sub_len, &difference_len)`. -/
def subtract_big_ints (minuend subtrahend : List Nat) : Option (List Nat) :=
  (complement_big_int subtrahend).bind (fun comp => add_big_ints minuend comp)

/-- What `printf("%llu", x)` writes: the decimal digits of `x`. -/
def printf_llu (x : Nat) : List Char := Nat.toDigits 10 x

/-- What `printf("%0<w>llu", x)` writes: the decimal digits of `x`, padded on the
left with zeros to at least `w` characters. -/
def printf_0llu (w x : Nat) : List Char :=
  List.replicate (w - (Nat.toDigits 10 x).length) '0' ++ Nat.toDigits 10 x

/-- The last loop of `print_big_int`: `for (n--; n >= 0; n--) printf(format_str, b[n])`;
the second argument is the number of limbs still to print. -/
def print_rest (b : List Nat) : Nat → List Char
  | 0 => []
  | n + 1 => printf_0llu MAGNITUDE (b.getD n 0) ++ print_rest b n

/-- `print_big_int(b, n)`, the characters the `printf` calls are given to write
to standard output.  It reads `b[n-1]`, and after the optional negation
`b[n-2]`; `none` when one of them is outside the array.  The `sprintf` into
`char format_str[7]` is not part of this function: `print_big_int_checked`
has it. -/
def print_big_int (b : List Nat) : Option (List Char) :=
  match b.getLast? with
  | none => none
  | some sign =>
    (if sign ≠ 0 then (complement_big_int b).map (fun c => (c, ['-'])) else some (b, [])).bind
      fun r =>
        if r.1.length < 2 then none
        else some (r.2 ++ printf_llu (r.1.getD (r.1.length - 2) 0)
              ++ print_rest r.1 (r.1.length - 2) ++ [Char.ofNat 10])

/-- How `get_digit_sequence` ends when it does not return a string of the line
buffer: the message written to the error stream before `exit(1)`, or, for a
line buffer that starts with the NUL, the pointer one before the buffer that
`line--` produces. -/
inductive Fatal where
  | not_enough_inputs
  | not_an_integer
  | pointer_before_buffer
  deriving DecidableEq

/-- The C string at the start of a buffer: the characters before the first NUL. -/
def cstring (buf : List Char) : List Char :=
  buf.takeWhile (fun c => c != Char.ofNat 0)

/-- The loop `while (*line == '0') line++;` of `get_digit_sequence`. -/
def skip_zeros : List Char → List Char
  | [] => []
  | c :: line => if c = '0' then skip_zeros line else c :: line

/-- `get_digit_sequence()`.  The argument is what `getline` delivers: `none`
when it returns `-1` (end of input), otherwise the `len` characters it has
read, the newline included when the line has one.  `line[len-1] = 0`
overwrites the last of them, and from there on `line` is used as a C string,
which ends at the first NUL: at that NUL when the characters read hold one.
When the loop over the zeros stops at the NUL, `line--` steps back by one
character: to the last `0` of the string, or before the buffer when the string
is empty. -/
def get_digit_sequence (input : Option (List Char)) : Except Fatal (List Char) :=
  match input with
  | none => Except.error Fatal.not_enough_inputs
  | some read =>
    if read.length ≤ 1 then Except.error Fatal.not_enough_inputs
    else
      let line := cstring read.dropLast
      if !is_digit_sequence line then Except.error Fatal.not_an_integer
      else if skip_zeros line = [] then
        (if line = [] then Except.error Fatal.pointer_before_buffer
         else Except.ok (line.drop (line.length - 1)))
      else Except.ok (skip_zeros line)

/-! ### The arithmetic functions with every array access checked

An array is again the list of its limbs, its length now being the number of
limbs the allocated block has room for.  A read or a write at an index outside
the block gives `none`. -/

/-- `sizeof(long long)`: the limbs are the "8-byte unsigned int" of the comment
on `MAGNITUDE`. -/
def SIZEOF_LONG_LONG : Nat := 8

/-- `malloc(nbytes)` as an array of limbs: room for `nbytes / sizeof(long long)`
limbs (their content, indeterminate in C, is taken to be `0`). -/
def malloc_limbs (nbytes : Nat) : List Nat :=
  List.replicate (nbytes / SIZEOF_LONG_LONG) 0

/-- `realloc(arr, nbytes)` as an array of limbs: the block now has room for
`nbytes / sizeof(long long)` limbs; the limbs that fit keep their content. -/
def realloc_limbs (arr : List Nat) (nbytes : Nat) : List Nat :=
  (arr ++ List.replicate (nbytes / SIZEOF_LONG_LONG - arr.length) 0).take
    (nbytes / SIZEOF_LONG_LONG)

/-- The checked write `arr[i] = v`. -/
def store (arr : List Nat) (i v : Nat) : Option (List Nat) :=
  if i < arr.length then some (arr.set i v) else none

/-- The main loop of `add_big_ints` with checked accesses; the last argument is
the array `sum`. -/
def add_loop_checked (op1 op2 : List Nat) (max_digit : Nat) :
    Nat → Nat → Nat → List Nat → Option (List Nat)
  | 0, _, _, sum => some sum
  | k + 1, i, carry, sum =>
    (if i ≥ op1.length then some 0 else op1[i]?).bind fun a =>
    (if i ≥ op2.length then some 0 else op2[i]?).bind fun b =>
      if (a + b + carry) % ULL ≥ max_digit then
        (store sum i ((a + b + carry) % ULL - max_digit)).bind fun sum1 =>
          add_loop_checked op1 op2 max_digit k (i + 1) 1 sum1
      else
        (store sum i ((a + b + carry) % ULL)).bind fun sum1 =>
          add_loop_checked op1 op2 max_digit k (i + 1) 0 sum1

/-- `add_big_ints` with checked accesses: `sum` is allocated with
`malloc(result_length * sizeof(long long))`, and in the growth branch resized
with `realloc(sum, result_length)` where `result_length` has just been
incremented. -/
def add_big_ints_checked (op1 op2 : List Nat) : Option (List Nat) :=
  let result_length := if op1.length > op2.length then op1.length else op2.length
  let max_digit := power_of_ten MAGNITUDE
  (add_loop_checked op1 op2 max_digit result_length 0 0
      (malloc_limbs (result_length * SIZEOF_LONG_LONG))).bind fun sum =>
    if result_length = 0 then none
    else (sum[result_length - 1]?).bind fun top =>
      if top = 1 then store (realloc_limbs sum (result_length + 1)) (result_length + 1 - 1) 0
      else some sum

/-- `complement_big_int` with checked accesses. -/
def complement_big_int_checked (b : List Nat) : Option (List Nat) :=
  let max_digit := (power_of_ten MAGNITUDE + ULL - 1) % ULL
  let complement := b.map (fun x => (max_digit + ULL - x) % ULL)
  add_big_ints_checked complement [1, 0]

/-- `subtract_big_ints` with checked accesses. -/
def subtract_big_ints_checked (minuend subtrahend : List Nat) : Option (List Nat) :=
  (complement_big_int_checked subtrahend).bind
    (fun comp => add_big_ints_checked minuend comp)

/-- `sprintf(format_str, "%%0%dllu", magnitude)` into `char format_str[size]`:
the characters `%0`, the decimal digits of `magnitude` and `llu` are written,
then the NUL; `none` when these do not all fit in the array. -/
def sprintf_format_str (size magnitude : Nat) : Option (List Char) :=
  if ([Char.ofNat 37, '0'] ++ Nat.toDigits 10 magnitude ++ ['l', 'l', 'u']).length + 1 ≤ size
  then some ([Char.ofNat 37, '0'] ++ Nat.toDigits 10 magnitude ++ ['l', 'l', 'u'])
  else none

/-- `print_big_int` with checked accesses: the negation goes through
`complement_big_int_checked`, and the format of the lower limbs is written
with `sprintf` into `char format_str[7]` before they are printed. -/
def print_big_int_checked (b : List Nat) : Option (List Char) :=
  match b.getLast? with
  | none => none
  | some sign =>
    (if sign ≠ 0 then (complement_big_int_checked b).map (fun c => (c, ['-']))
      else some (b, [])).bind
      fun r =>
        if r.1.length < 2 then none
        else (sprintf_format_str 7 MAGNITUDE).bind fun _ =>
          some (r.2 ++ printf_llu (r.1.getD (r.1.length - 2) 0)
              ++ print_rest r.1 (r.1.length - 2) ++ [Char.ofNat 10])

/-! ## Notions of the specification -/

/-- The radix `B = 10^18`. -/
def B : Nat := 10 ^ 18

/-- Canonical decimal string: not empty, digits only, no leading zero unless it
is exactly `"0"`. -/
def Canonical (s : List Char) : Prop :=
  s ≠ [] ∧ is_digit_sequence s = true ∧ (s.head? = some '0' → s = ['0'])

instance (s : List Char) : Decidable (Canonical s) := by
  unfold Canonical; infer_instance

/-- Sum of `limb_i * B^i` over all limbs of the sequence. -/
def limbsValue : List Nat → Nat
  | [] => 0
  | x :: xs => x + B * limbsValue xs

/-- Well-formed big integer: at least one magnitude limb, every limb in
`[0, B)`, the sign limb `0` or `B - 1`. -/
def WellFormed (a : List Nat) : Prop :=
  2 ≤ a.length ∧ (∀ x ∈ a, x < B) ∧ (a.getLast? = some 0 ∨ a.getLast? = some (B - 1))

instance (a : List Nat) : Decidable (WellFormed a) := by
  unfold WellFormed; infer_instance

/-- Signed value of a limb sequence of length `n`: the sum of `limb_i * B^i`,
minus `B^n` when the sign limb is `B - 1`. -/
def signedValue (a : List Nat) : Int :=
  if a.getLast? = some (B - 1) then (limbsValue a : Int) - (B : Int) ^ a.length
  else (limbsValue a : Int)

/-- What `print_big_int` writes for the limbs it ends up printing (after the
optional sign): the limb below the sign limb unpadded, the lower limbs padded,
and the newline. -/
def printLimbs (b : List Nat) : List Char :=
  printf_llu (b.getD (b.length - 2) 0) ++ print_rest b (b.length - 2) ++ [Char.ofNat 10]

/-- The carry into position `i` of the position-wise addition the
specification describes: `0` into position `0`, and `1` into the next position
exactly when the sum at a position, a missing limb counting as `0`, is at least
`B`. -/
def carryInto (a b : List Nat) : Nat → Nat
  | 0 => 0
  | i + 1 => if a.getD i 0 + b.getD i 0 + carryInto a b i ≥ B then 1 else 0

/-- The limb of the specification's addition at position `i`: the position-wise
sum with the incoming carry, reduced modulo `B`. -/
def sumLimb (a b : List Nat) (i : Nat) : Nat :=
  (a.getD i 0 + b.getD i 0 + carryInto a b i) % B

/-! ## Machine arithmetic -/

theorem power_of_ten_MAGNITUDE : power_of_ten MAGNITUDE = B := by decide

theorem B_pos : 0 < B := by decide

theorem B_lt_ULL : 2 * B < ULL := by decide

/-! ## Values of limb sequences -/

theorem limbsValue_append (l : List Nat) (x : Nat) :
    limbsValue (l ++ [x]) = limbsValue l + B ^ l.length * x := by
  induction l with
  | nil => simp [limbsValue]
  | cons y ys ih =>
    show y + B * limbsValue (ys ++ [x]) = y + B * limbsValue ys + B ^ (ys.length + 1) * x
    rw [ih, pow_succ]
    ring

theorem limbsValue_lt (l : List Nat) (h : ∀ x ∈ l, x < B) :
    limbsValue l < B ^ l.length := by
  induction l with
  | nil => simp [limbsValue]
  | cons y ys ih =>
    have hy : y < B := h y (List.mem_cons_self _ _)
    have hys := ih (fun x hx => h x (List.mem_cons_of_mem _ hx))
    simp only [limbsValue, List.length_cons, pow_succ]
    have : B * (limbsValue ys + 1) ≤ B * B ^ ys.length := Nat.mul_le_mul_left _ hys
    nlinarith

theorem limbsValue_inj : ∀ (l1 l2 : List Nat), l1.length = l2.length →
    (∀ x ∈ l1, x < B) → (∀ x ∈ l2, x < B) → limbsValue l1 = limbsValue l2 → l1 = l2
  | [], [], _, _, _, _ => rfl
  | [], _ :: _, h, _, _, _ => by simp at h
  | _ :: _, [], h, _, _, _ => by simp at h
  | x :: xs, y :: ys, hl, h1, h2, hv => by
    have hx : x < B := h1 x (List.mem_cons_self _ _)
    have hy : y < B := h2 y (List.mem_cons_self _ _)
    simp only [limbsValue] at hv
    have hxy : x = y := by
      have := congrArg (· % B) hv
      simpa [Nat.add_mul_mod_self_left, Nat.mod_eq_of_lt hx, Nat.mod_eq_of_lt hy] using this
    subst hxy
    have hvs : limbsValue xs = limbsValue ys := by
      have : B * limbsValue xs = B * limbsValue ys := by omega
      exact Nat.eq_of_mul_eq_mul_left B_pos this
    rw [limbsValue_inj xs ys (by simpa using hl) (fun z hz => h1 z (List.mem_cons_of_mem _ hz))
      (fun z hz => h2 z (List.mem_cons_of_mem _ hz)) hvs]

/-! ## The addition loop -/

theorem add_loop_succ (op1 op2 : List Nat) (md k i c : Nat) :
    add_loop op1 op2 md (k + 1) i c =
      if (op1.getD i 0 + op2.getD i 0 + c) % ULL ≥ md then
        ((op1.getD i 0 + op2.getD i 0 + c) % ULL - md) :: add_loop op1 op2 md k (i + 1) 1
      else (op1.getD i 0 + op2.getD i 0 + c) % ULL :: add_loop op1 op2 md k (i + 1) 0 := by
  have g : ∀ l : List Nat, (if i ≥ l.length then 0 else l.getD i 0) = l.getD i 0 := by
    intro l
    split
    · rename_i h
      simp [List.getD_eq_getElem?_getD, List.getElem?_eq_none h]
    · rfl
  simp only [add_loop, g]

theorem add_loop_length (op1 op2 : List Nat) (md : Nat) :
    ∀ (k i c : Nat), (add_loop op1 op2 md k i c).length = k := by
  intro k
  induction k with
  | zero => intro i c; simp [add_loop]
  | succ k ih =>
    intro i c
    rw [add_loop_succ]
    split <;> simp [ih]

theorem add_loop_shift (op1 op2 : List Nat) (md i : Nat) :
    ∀ (k j c : Nat),
      add_loop op1 op2 md k (i + j) c = add_loop (op1.drop i) (op2.drop i) md k j c := by
  intro k
  induction k with
  | zero => intro j c; simp [add_loop]
  | succ k ih =>
    intro j c
    have g : ∀ l : List Nat, (l.drop i).getD j 0 = l.getD (i + j) 0 := by
      intro l
      simp [List.getD_eq_getElem?_getD, List.getElem?_drop]
    rw [add_loop_succ, add_loop_succ, g, g, ← ih, ← ih]
    rfl

theorem add_loop_tail (op1 op2 : List Nat) (md k c : Nat) :
    add_loop op1 op2 md k 1 c = add_loop op1.tail op2.tail md k 0 c := by
  have := add_loop_shift op1 op2 md 1 k 0 c
  simpa using this

theorem limbs_head_tail (l : List Nat) (h : ∀ x ∈ l, x < B) :
    l.getD 0 0 < B ∧ limbsValue l = l.getD 0 0 + B * limbsValue l.tail ∧
      (∀ x ∈ l.tail, x < B) ∧ l.tail.length = l.length - 1 := by
  cases l with
  | nil => simp [limbsValue, B_pos]
  | cons y ys =>
    refine ⟨by simpa using h y (List.mem_cons_self _ _), by simp [limbsValue], ?_, by simp⟩
    intro x hx
    exact h x (List.mem_cons_of_mem _ hx)

/-- On limbs below `B` the loop is schoolbook addition in base `B`: the limbs it
writes stay below `B` and, with the carry that leaves the last position, they
represent the exact sum. -/
theorem add_loop_spec : ∀ (k : Nat) (op1 op2 : List Nat) (c : Nat),
    op1.length ≤ k → op2.length ≤ k → (∀ x ∈ op1, x < B) → (∀ x ∈ op2, x < B) → c ≤ 1 →
    (∀ x ∈ add_loop op1 op2 B k 0 c, x < B) ∧
    ∃ cout, cout ≤ 1 ∧
      limbsValue (add_loop op1 op2 B k 0 c) + B ^ k * cout
        = limbsValue op1 + limbsValue op2 + c := by
  intro k
  induction k with
  | zero =>
    intro op1 op2 c h1 h2 _ _ hc
    have e1 : op1 = [] := List.length_eq_zero.mp (Nat.le_zero.mp h1)
    have e2 : op2 = [] := List.length_eq_zero.mp (Nat.le_zero.mp h2)
    subst e1 e2
    refine ⟨by simp [add_loop], c, hc, by simp [add_loop, limbsValue]⟩
  | succ k ih =>
    intro op1 op2 c h1 h2 b1 b2 hc
    obtain ⟨ha, hv1, bt1, lt1⟩ := limbs_head_tail op1 b1
    obtain ⟨hb, hv2, bt2, lt2⟩ := limbs_head_tail op2 b2
    have hU := B_lt_ULL
    have hmod : (op1.getD 0 0 + op2.getD 0 0 + c) % ULL = op1.getD 0 0 + op2.getD 0 0 + c :=
      Nat.mod_eq_of_lt (by omega)
    rw [add_loop_succ, hmod]
    have hstep : ∀ (d c' : Nat), c' ≤ 1 → d < B →
        d + B * c' = op1.getD 0 0 + op2.getD 0 0 + c →
        (∀ x ∈ d :: add_loop op1.tail op2.tail B k 0 c', x < B) ∧
        ∃ cout, cout ≤ 1 ∧
          limbsValue (d :: add_loop op1.tail op2.tail B k 0 c') + B ^ (k + 1) * cout
            = limbsValue op1 + limbsValue op2 + c := by
      intro d c' hc' hd hdc
      obtain ⟨hb', cout, hco, hval⟩ := ih op1.tail op2.tail c' (by omega) (by omega) bt1 bt2 hc'
      refine ⟨?_, cout, hco, ?_⟩
      · intro x hx
        rcases List.mem_cons.mp hx with h | h
        · rw [h]; exact hd
        · exact hb' x h
      · simp only [limbsValue]
        rw [hv1, hv2, pow_succ]
        generalize limbsValue (add_loop op1.tail op2.tail B k 0 c') = X at hval ⊢
        generalize B ^ k = P at hval ⊢
        generalize limbsValue op1.tail = V1 at hval ⊢
        generalize limbsValue op2.tail = V2 at hval ⊢
        generalize op1.getD 0 0 = a at hdc ⊢
        generalize op2.getD 0 0 = b at hdc ⊢
        generalize B = R at hdc hval ⊢
        zify at hdc hval ⊢
        linear_combination hdc + R * hval
    split
    · rename_i hge
      rw [add_loop_tail]
      exact hstep _ 1 le_rfl (by omega) (by omega)
    · rename_i hlt
      rw [add_loop_tail]
      exact hstep _ 0 (Nat.zero_le _) (by omega) (by omega)

/-! ## The top limb -/

theorem limbs_split (l : List Nat) (k : Nat) (hl : l.length = k + 1) :
    l = l.take k ++ [l.getD k 0] := by
  have h1 : l = l.take k ++ l.drop k := (List.take_append_drop k l).symm
  have h2 : l.drop k = [l.getD k 0] := by
    have hlen : (l.drop k).length = 1 := by simp [hl]
    match hd : l.drop k, hlen with
    | [x], _ =>
      have : l[k]? = some x := by
        have := congrArg (fun t => t[0]?) hd
        simpa [List.getElem?_drop] using this
      simp [List.getD_eq_getElem?_getD, this]
  rw [← h2]
  exact h1

theorem getLast?_eq_getD (l : List Nat) (k : Nat) (hl : l.length = k + 1) :
    l.getLast? = some (l.getD k 0) := by
  conv_lhs => rw [limbs_split l k hl]
  simp

theorem top_limb_bounds (l : List Nat) (k : Nat) (hl : l.length = k + 1)
    (hb : ∀ x ∈ l, x < B) :
    l.getD k 0 * B ^ k ≤ limbsValue l ∧ limbsValue l < (l.getD k 0 + 1) * B ^ k := by
  have hs := limbs_split l k hl
  have hv : limbsValue l = limbsValue (l.take k) + B ^ k * l.getD k 0 := by
    conv_lhs => rw [hs]
    rw [limbsValue_append]
    simp [hl]
  have hlt : limbsValue (l.take k) < B ^ k := by
    have := limbsValue_lt (l.take k) (fun x hx => hb x (List.mem_of_mem_take hx))
    simpa [hl] using this
  rw [hv]
  constructor
  · rw [Nat.mul_comm]; exact Nat.le_add_left _ _
  · rw [Nat.add_mul, Nat.one_mul, Nat.mul_comm (l.getD k 0)]; omega

theorem top_limb_eq (l : List Nat) (k t : Nat) (hl : l.length = k + 1)
    (hb : ∀ x ∈ l, x < B) (lo : t * B ^ k ≤ limbsValue l)
    (hi : limbsValue l < (t + 1) * B ^ k) : l.getD k 0 = t := by
  obtain ⟨h1, h2⟩ := top_limb_bounds l k hl hb
  have hP : 0 < B ^ k := pow_pos B_pos k
  by_contra hne
  rcases Nat.lt_or_gt_of_ne hne with h | h
  · have : (l.getD k 0 + 1) * B ^ k ≤ t * B ^ k := Nat.mul_le_mul_right _ h
    omega
  · have : (t + 1) * B ^ k ≤ l.getD k 0 * B ^ k := Nat.mul_le_mul_right _ h
    omega

/-! ## `add_big_ints` on limbs below `B` -/

/-- The array `add_big_ints` returns from the limbs its loop has written. -/
theorem add_big_ints_eq (op1 op2 : List Nat) (h : 0 < max op1.length op2.length) :
    add_big_ints op1 op2 =
      some (if (add_loop op1 op2 B (max op1.length op2.length) 0 0).getD
              (max op1.length op2.length - 1) 0 = 1
            then add_loop op1 op2 B (max op1.length op2.length) 0 0 ++ [0]
            else add_loop op1 op2 B (max op1.length op2.length) 0 0) := by
  have hm : (if op1.length > op2.length then op1.length else op2.length)
      = max op1.length op2.length := by
    split <;> omega
  unfold add_big_ints
  simp only [hm, power_of_ten_MAGNITUDE]
  rw [if_neg (by omega)]
  split <;> rfl

theorem complement_limbs (b : List Nat) (hb : ∀ x ∈ b, x < B) :
    b.map (fun x => ((power_of_ten MAGNITUDE + ULL - 1) % ULL + ULL - x) % ULL)
      = b.map (fun x => B - 1 - x) := by
  apply List.map_congr_left
  intro x hx
  have h1 : (power_of_ten MAGNITUDE + ULL - 1) % ULL = B - 1 := by decide
  have h2 := hb x hx
  have h3 := B_lt_ULL
  have h4 : B - 1 + ULL - x = (B - 1 - x) + ULL := by omega
  rw [h1, h4, Nat.add_mod_right, Nat.mod_eq_of_lt (by omega)]

theorem complement_value (b : List Nat) (hb : ∀ x ∈ b, x < B) :
    limbsValue (b.map (fun x => B - 1 - x)) + limbsValue b + 1 = B ^ b.length := by
  induction b with
  | nil => simp [limbsValue]
  | cons y ys ih =>
    have hy : y < B := hb y (List.mem_cons_self _ _)
    have hys := ih (fun x hx => hb x (List.mem_cons_of_mem _ hx))
    simp only [List.map_cons, limbsValue, List.length_cons, pow_succ]
    have e : B - 1 - y + y + 1 = B := by omega
    generalize limbsValue (List.map (fun x => B - 1 - x) ys) = X at hys ⊢
    generalize limbsValue ys = Y at hys ⊢
    generalize B - 1 - y = d at e ⊢
    generalize B ^ ys.length = P at hys ⊢
    generalize B = R at e hys ⊢
    zify at e hys ⊢
    linear_combination e + R * hys

/-! ## Negation -/

/-- The limbs `complement_big_int` computes before the growth test: they
represent `B^n - value` modulo `B^n`. -/
theorem complement_sum (a : List Nat) (k : Nat) (hl : a.length = k + 2)
    (hb : ∀ x ∈ a, x < B) :
    ∃ sum, sum.length = k + 2 ∧ (∀ x ∈ sum, x < B) ∧
      (limbsValue sum + limbsValue a = B ^ (k + 2) ∨ (limbsValue sum = 0 ∧ limbsValue a = 0)) ∧
      complement_big_int a = some (if sum.getD (k + 1) 0 = 1 then sum ++ [0] else sum) := by
  have hmax : max (a.map (fun x => B - 1 - x)).length ([1, 0] : List Nat).length = k + 2 := by
    simp [hl]
  have hone : ∀ x ∈ ([1, 0] : List Nat), x < B := by
    intro x hx
    have hB : 1 < B := by decide
    simp at hx
    rcases hx with rfl | rfl <;> omega
  have hcb : ∀ x ∈ a.map (fun x => B - 1 - x), x < B := by
    intro x hx
    obtain ⟨y, hy, rfl⟩ := List.mem_map.mp hx
    have := hb y hy
    omega
  obtain ⟨hsb, cout, hco, hval⟩ := add_loop_spec (k + 2) (a.map (fun x => B - 1 - x)) [1, 0] 0
    (by simp [hl]) (by simp) hcb hone (Nat.zero_le _)
  refine ⟨add_loop (a.map (fun x => B - 1 - x)) [1, 0] B (k + 2) 0 0, add_loop_length _ _ _ _ _ _,
    hsb, ?_, ?_⟩
  · have hcv := complement_value a hb
    have h1 : limbsValue ([1, 0] : List Nat) = 1 := by simp [limbsValue]
    rw [h1] at hval
    rw [hl] at hcv
    have hc : cout = 0 ∨ cout = 1 := by omega
    rcases hc with rfl | rfl
    · left; omega
    · right; omega
  · unfold complement_big_int
    simp only []
    rw [complement_limbs a hb, add_big_ints_eq _ _ (by rw [hmax]; omega), hmax]
    rfl

theorem pow_split (k : Nat) : B ^ (k + 2) = (B - 1) * B ^ (k + 1) + B ^ (k + 1) := by
  calc B ^ (k + 2) = B * B ^ (k + 1) := by rw [pow_succ, Nat.mul_comm]
    _ = (B - 1 + 1) * B ^ (k + 1) := by rw [Nat.sub_add_cancel B_pos]
    _ = (B - 1) * B ^ (k + 1) + B ^ (k + 1) := by rw [Nat.add_mul, Nat.one_mul]

/-- What the sign limb says about the unsigned value of the limbs. -/
theorem sign_bounds (l : List Nat) (k : Nat) (hl : l.length = k + 2) (hb : ∀ x ∈ l, x < B) :
    (l.getD (k + 1) 0 = 0 → limbsValue l < B ^ (k + 1)) ∧
    (l.getD (k + 1) 0 = B - 1 →
      (B - 1) * B ^ (k + 1) ≤ limbsValue l ∧ limbsValue l < B ^ (k + 2)) := by
  obtain ⟨lo, hi⟩ := top_limb_bounds l (k + 1) hl hb
  constructor
  · intro h
    rw [h] at hi
    simpa using hi
  · intro h
    rw [h] at lo
    refine ⟨lo, ?_⟩
    have := limbsValue_lt l hb
    rwa [hl] at this

/-- Negation without growth: any operand except the one whose limbs are all
zero under a sign limb `B - 1`. -/
theorem complement_regular (a : List Nat) (k : Nat) (hl : a.length = k + 2)
    (hb : ∀ x ∈ a, x < B) (hs : a.getD (k + 1) 0 = 0 ∨ a.getD (k + 1) 0 = B - 1)
    (hreg : limbsValue a ≠ (B - 1) * B ^ (k + 1)) :
    ∃ c, complement_big_int a = some c ∧ c.length = k + 2 ∧ (∀ x ∈ c, x < B) ∧
      (limbsValue c + limbsValue a = B ^ (k + 2) ∨ (limbsValue c = 0 ∧ limbsValue a = 0)) ∧
      c.getD (k + 1) 0 = (if a.getD (k + 1) 0 = 0 ∧ limbsValue a ≠ 0 then B - 1 else 0) := by
  obtain ⟨sum, hsl, hsb, hsv, hc⟩ := complement_sum a k hl hb
  obtain ⟨b0, b1⟩ := sign_bounds a k hl hb
  have hslt := limbsValue_lt sum hsb
  rw [hsl] at hslt
  have hB1 : (1 : Nat) < B - 1 := by decide
  have hP : 0 < B ^ (k + 1) := pow_pos B_pos _
  have hsplit := pow_split k
  have hone : (B - 1 + 1) * B ^ (k + 1) = B ^ (k + 2) := by
    rw [Nat.add_mul, Nat.one_mul, hsplit]
  have htop : sum.getD (k + 1) 0
      = (if a.getD (k + 1) 0 = 0 ∧ limbsValue a ≠ 0 then B - 1 else 0) := by
    rcases hs with h0 | h1
    · have hi := b0 h0
      by_cases hv : limbsValue a = 0
      · rw [if_neg (by simp [hv])]
        apply top_limb_eq sum (k + 1) 0 hsl hsb
        · simp
        · simp only [Nat.zero_add, Nat.one_mul]; omega
      · rw [if_pos ⟨h0, hv⟩]
        apply top_limb_eq sum (k + 1) (B - 1) hsl hsb
        · omega
        · rw [hone]; omega
    · obtain ⟨lo, hi⟩ := b1 h1
      rw [if_neg (by rw [h1]; omega)]
      apply top_limb_eq sum (k + 1) 0 hsl hsb
      · simp
      · simp only [Nat.zero_add, Nat.one_mul]; omega
  have hne : sum.getD (k + 1) 0 ≠ 1 := by
    rw [htop]; split <;> omega
  rw [if_neg hne] at hc
  exact ⟨sum, hc, hsl, hsb, hsv, htop⟩

/-- Negation with growth: the operand whose limbs are all zero under a sign limb
`B - 1`. -/
theorem complement_grows (a : List Nat) (k : Nat) (hl : a.length = k + 2)
    (hb : ∀ x ∈ a, x < B) (hmin : limbsValue a = (B - 1) * B ^ (k + 1)) :
    ∃ sum, complement_big_int a = some (sum ++ [0]) ∧ sum.length = k + 2 ∧
      (∀ x ∈ sum, x < B) ∧ limbsValue sum = B ^ (k + 1) ∧ sum.getD (k + 1) 0 = 1 := by
  obtain ⟨sum, hsl, hsb, hsv, hc⟩ := complement_sum a k hl hb
  have hP : 0 < B ^ (k + 1) := pow_pos B_pos _
  have hsplit := pow_split k
  have hB1 : (1 : Nat) < B - 1 := by decide
  have hQ : B ^ (k + 1) ≤ (B - 1) * B ^ (k + 1) := Nat.le_mul_of_pos_left _ (by omega)
  have hv : limbsValue sum = B ^ (k + 1) := by omega
  have htop : sum.getD (k + 1) 0 = 1 := by
    apply top_limb_eq sum (k + 1) 1 hsl hsb
    · rw [hv, Nat.one_mul]
    · rw [hv, Nat.add_mul, Nat.one_mul]; omega
  rw [if_pos htop] at hc
  exact ⟨sum, hc, hsl, hsb, hv, htop⟩

theorem signedValue_of_top (l : List Nat) (k : Nat) (hl : l.length = k + 2) :
    signedValue l = if l.getD (k + 1) 0 = B - 1
      then (limbsValue l : Int) - ((B ^ (k + 2) : Nat) : Int) else (limbsValue l : Int) := by
  unfold signedValue
  rw [getLast?_eq_getD l (k + 1) hl, hl]
  simp only [Option.some.injEq, Nat.cast_pow]

theorem wellFormed_iff (l : List Nat) (k : Nat) (hl : l.length = k + 2) :
    WellFormed l ↔ (∀ x ∈ l, x < B) ∧ (l.getD (k + 1) 0 = 0 ∨ l.getD (k + 1) 0 = B - 1) := by
  unfold WellFormed
  rw [getLast?_eq_getD l (k + 1) hl]
  simp only [Option.some.injEq]
  constructor
  · rintro ⟨_, h2, h3⟩; exact ⟨h2, h3⟩
  · rintro ⟨h2, h3⟩; exact ⟨by omega, h2, h3⟩

theorem wellFormed_length (a : List Nat) (h : WellFormed a) : ∃ k, a.length = k + 2 :=
  ⟨a.length - 2, by have := h.1; omega⟩

theorem getD_append_last (l : List Nat) (x : Nat) (k : Nat) (hl : l.length = k) :
    (l ++ [x]).getD k 0 = x := by
  subst hl
  simp [List.getD_eq_getElem?_getD]

theorem mem_append_zero (l : List Nat) (hb : ∀ x ∈ l, x < B) : ∀ x ∈ l ++ [0], x < B := by
  intro x hx
  rcases List.mem_append.mp hx with h | h
  · exact hb x h
  · simp at h; rw [h]; exact B_pos

/-! ## Printing -/

theorem print_big_int_nonneg (b : List Nat) (k : Nat) (hl : b.length = k + 2)
    (hs : b.getD (k + 1) 0 = 0) : print_big_int b = some (printLimbs b) := by
  unfold print_big_int
  rw [getLast?_eq_getD b (k + 1) hl, hs]
  simp [printLimbs, hl]

theorem print_big_int_neg (b c : List Nat) (k : Nat) (hl : b.length = k + 2)
    (hs : b.getD (k + 1) 0 ≠ 0) (hc : complement_big_int b = some c) (hcl : 2 ≤ c.length) :
    print_big_int b = some ('-' :: printLimbs c) := by
  unfold print_big_int
  rw [getLast?_eq_getD b (k + 1) hl]
  simp only [ne_eq, hs, not_false_eq_true, if_true, hc, Option.map_some', Option.some_bind]
  rw [if_neg (by omega)]
  simp [printLimbs]

/-! ## Double negation -/

theorem complement_big_int_length (a : List Nat) (k : Nat) (hl : a.length = k + 2)
    (hb : ∀ x ∈ a, x < B) : ∃ c, complement_big_int a = some c ∧ 2 ≤ c.length := by
  obtain ⟨sum, hsl, _, _, hc⟩ := complement_sum a k hl hb
  refine ⟨_, hc, ?_⟩
  split
  · simp [hsl]
  · omega

theorem complement_complement (a : List Nat) (k : Nat) (hl : a.length = k + 2)
    (hb : ∀ x ∈ a, x < B) (hs : a.getD (k + 1) 0 = 0 ∨ a.getD (k + 1) 0 = B - 1)
    (hreg : limbsValue a ≠ (B - 1) * B ^ (k + 1)) :
    ∃ c, complement_big_int a = some c ∧ complement_big_int c = some a ∧ c.length = k + 2 ∧
      c.getD (k + 1) 0 = (if a.getD (k + 1) 0 = 0 ∧ limbsValue a ≠ 0 then B - 1 else 0) := by
  obtain ⟨c, hc, hcl, hcb, hcv, hct⟩ := complement_regular a k hl hb hs hreg
  obtain ⟨b0, b1⟩ := sign_bounds a k hl hb
  have hB1 : (1 : Nat) < B - 1 := by decide
  have hP : 0 < B ^ (k + 1) := pow_pos B_pos _
  have hsplit := pow_split k
  have hQ : B ^ (k + 1) ≤ (B - 1) * B ^ (k + 1) := Nat.le_mul_of_pos_left _ (by omega)
  have halt := limbsValue_lt a hb
  rw [hl] at halt
  have hcs : c.getD (k + 1) 0 = 0 ∨ c.getD (k + 1) 0 = B - 1 := by
    rw [hct]; split
    · right; rfl
    · left; rfl
  have hcreg : limbsValue c ≠ (B - 1) * B ^ (k + 1) := by
    intro hcq
    rcases hs with h0 | h1
    · have := b0 h0; omega
    · have := b1 h1; omega
  obtain ⟨d, hd, hdl, hdb, hdv, _⟩ := complement_regular c k hcl hcb hcs hcreg
  have hclt := limbsValue_lt c hcb
  rw [hcl] at hclt
  have hdlt := limbsValue_lt d hdb
  rw [hdl] at hdlt
  have hda : d = a := by
    apply limbsValue_inj d a (by rw [hdl, hl]) hdb hb
    omega
  rw [hda] at hd
  exact ⟨c, hc, hd, hcl, hct⟩

/-! ## Decimal digits -/

theorem digitChar_toNat (d : Nat) (h : d < 10) : (Nat.digitChar d).toNat = d + 48 := by
  interval_cases d <;> rfl

theorem char_eq_of_toNat (c d : Char) (h : c.toNat = d.toNat) : c = d := by
  apply Char.ext
  apply UInt32.ext
  exact h

theorem digitChar_digitValue (c : Char) (h : isdigit c = true) :
    Nat.digitChar (digitValue c) = c ∧ digitValue c < 10 := by
  simp only [isdigit, decide_eq_true_eq] at h
  have hd : digitValue c < 10 := by unfold digitValue; omega
  refine ⟨?_, hd⟩
  apply char_eq_of_toNat
  rw [digitChar_toNat _ hd]
  unfold digitValue; omega

theorem digitValue_eq_zero (c : Char) (h : isdigit c = true) (h0 : digitValue c = 0) :
    c = '0' := by
  have := (digitChar_digitValue c h).1
  rw [h0] at this
  exact this.symm

theorem is_digit_sequence_iff (s : List Char) :
    is_digit_sequence s = true ↔ ∀ c ∈ s, isdigit c = true := by
  induction s with
  | nil => simp [is_digit_sequence]
  | cons c cs ih =>
    simp only [is_digit_sequence, List.mem_cons, forall_eq_or_imp]
    cases hc : isdigit c <;> simp [ih]

theorem toDigitsCore_eq : ∀ (fuel n : Nat) (ds : List Char), n < fuel → 0 < n →
    Nat.toDigitsCore 10 fuel n ds = ((Nat.digits 10 n).reverse.map Nat.digitChar) ++ ds := by
  intro fuel
  induction fuel with
  | zero => intro n ds h; omega
  | succ f ih =>
    intro n ds hf hn
    rw [Nat.toDigitsCore]
    have hdig : Nat.digits 10 n = (n % 10) :: Nat.digits 10 (n / 10) :=
      Nat.digits_def' (by decide) hn
    by_cases h0 : n / 10 = 0
    · simp [h0, hdig]
    · simp only [h0, if_false]
      rw [ih (n / 10) _ (by omega) (by omega), hdig]
      simp

theorem toDigits_eq (n : Nat) (hn : 0 < n) :
    Nat.toDigits 10 n = (Nat.digits 10 n).reverse.map Nat.digitChar := by
  unfold Nat.toDigits
  rw [toDigitsCore_eq (n + 1) n [] (by omega) hn]
  simp

theorem decimalValue_concat (s : List Char) (c : Char) :
    decimalValue (s ++ [c]) = decimalValue s * 10 + digitValue c := by
  simp [decimalValue, List.foldl_append]

theorem decimalValue_eq_ofDigits (s : List Char) :
    decimalValue s = Nat.ofDigits 10 (s.reverse.map digitValue) := by
  induction s using List.reverseRecOn with
  | nil => simp [decimalValue]
  | append_singleton s c ih =>
    rw [decimalValue_concat, ih]
    simp [Nat.ofDigits_cons]
    ring

theorem decimalValue_append (p q : List Char) :
    decimalValue (p ++ q) = decimalValue p * 10 ^ q.length + decimalValue q := by
  induction q using List.reverseRecOn with
  | nil => simp [decimalValue]
  | append_singleton q c ih =>
    rw [← List.append_assoc, decimalValue_concat, decimalValue_concat, ih]
    simp [pow_succ]
    ring

theorem digitValues_lt (s : List Char) (h : is_digit_sequence s = true) :
    ∀ d ∈ s.reverse.map digitValue, d < 10 := by
  intro d hd
  obtain ⟨c, hc, rfl⟩ := List.mem_map.mp hd
  exact (digitChar_digitValue c ((is_digit_sequence_iff s).mp h c (List.mem_reverse.mp hc))).2

theorem decimalValue_lt (s : List Char) (h : is_digit_sequence s = true) :
    decimalValue s < 10 ^ s.length := by
  rw [decimalValue_eq_ofDigits]
  have := Nat.ofDigits_lt_base_pow_length (b := 10) (by decide) (digitValues_lt s h)
  simpa using this

/-- The decimal digits of the value of a canonical string other than `"0"` are
the digits of the string. -/
theorem digits_decimalValue (s : List Char) (h : Canonical s) (h0 : s ≠ ['0']) :
    Nat.digits 10 (decimalValue s) = s.reverse.map digitValue := by
  obtain ⟨hne, hd, hlead⟩ := h
  rw [decimalValue_eq_ofDigits]
  apply Nat.digits_ofDigits 10 (by decide) _ (digitValues_lt s hd)
  intro hL
  cases s with
  | nil => exact absurd rfl hne
  | cons c cs =>
    have hlast : (List.map digitValue (c :: cs).reverse).getLast hL = digitValue c := by
      simp [List.getLast_append]
    rw [hlast]
    intro hz
    have hc : isdigit c = true := (is_digit_sequence_iff _).mp hd c (List.mem_cons_self _ _)
    have := digitValue_eq_zero c hc hz
    subst this
    exact h0 (hlead rfl)

/-- Round trip on decimal strings: the digits `printf("%llu")` writes for the
value of a canonical string are the string. -/
theorem toDigits_decimalValue (s : List Char) (h : Canonical s) :
    Nat.toDigits 10 (decimalValue s) = s := by
  by_cases h0 : s = ['0']
  · subst h0; rfl
  · have hdig := digits_decimalValue s h h0
    have hpos : 0 < decimalValue s := by
      rcases Nat.eq_zero_or_pos (decimalValue s) with hz | hp
      · rw [hz] at hdig
        simp at hdig
        exact absurd hdig h.1
      · exact hp
    rw [toDigits_eq _ hpos, hdig]
    simp only [List.reverse_reverse, List.map_map, List.map_reverse]
    have hmap : ∀ (l : List Char), (∀ c ∈ l, isdigit c = true) →
        l.map (Nat.digitChar ∘ digitValue) = l := by
      intro l hl
      induction l with
      | nil => rfl
      | cons c cs ih =>
        simp only [List.map_cons, Function.comp]
        rw [(digitChar_digitValue c (hl c (List.mem_cons_self _ _))).1]
        congr 1
        exact ih (fun x hx => hl x (List.mem_cons_of_mem _ hx))
    exact hmap s ((is_digit_sequence_iff s).mp h.2.1)

/-- A canonical string of `n` digits other than `"0"` denotes at least `10^(n-1)`. -/
theorem decimalValue_ge (s : List Char) (h : Canonical s) (h0 : s ≠ ['0']) :
    10 ^ s.length ≤ 10 * decimalValue s := by
  have hdig := digits_decimalValue s h h0
  have hnz : decimalValue s ≠ 0 := by
    intro hz
    rw [hz] at hdig
    simp at hdig
    exact absurd hdig h.1
  have := Nat.base_pow_length_digits_le 10 (decimalValue s) (by decide) hnz
  rw [hdig] at this
  simpa using this

theorem digits_length_le (x : Nat) (hx : x < 10 ^ 18) : (Nat.digits 10 x).length ≤ 18 := by
  rcases Nat.eq_zero_or_pos x with h0 | hp
  · subst h0; simp
  · rw [Nat.digits_len 10 x (by decide) (by omega)]
    have := Nat.log_lt_of_lt_pow (by omega) hx
    omega

theorem printf_0llu_eq (x : Nat) (hx : x < 10 ^ 18) :
    printf_0llu MAGNITUDE x = List.replicate (18 - (Nat.digits 10 x).length) '0'
      ++ (Nat.digits 10 x).reverse.map Nat.digitChar := by
  rcases Nat.eq_zero_or_pos x with h0 | hp
  · subst h0
    rw [Nat.digits_zero]
    decide
  · unfold printf_0llu
    rw [toDigits_eq x hp]
    simp [MAGNITUDE]

/-- The digits of a number with a low limb `x` and higher part `y > 0`: the
digits of `y` followed by `x` padded to eighteen digits. -/
theorem toDigits_limb (x y : Nat) (hx : x < B) (hy : 0 < y) :
    Nat.toDigits 10 (x + B * y) = Nat.toDigits 10 y ++ printf_0llu MAGNITUDE x := by
  have hB : B = 10 ^ 18 := rfl
  rw [hB] at hx
  have hlen := digits_length_le x hx
  have hpos : 0 < x + B * y := by
    have := Nat.mul_pos B_pos hy
    omega
  rw [toDigits_eq _ hpos, toDigits_eq y hy, printf_0llu_eq x hx]
  have hd := Nat.digits_append_zeroes_append_digits (b := 10)
    (k := 18 - (Nat.digits 10 x).length) (m := y) (n := x) (by decide) hy
  have e : (Nat.digits 10 x).length + (18 - (Nat.digits 10 x).length) = 18 := by omega
  rw [e] at hd
  rw [hB, ← hd]
  have hz : Nat.digitChar 0 = '0' := rfl
  simp [hz]

/-! ## Printing a non-negative big integer -/

theorem print_rest_cons (x : Nat) (rest : List Nat) :
    ∀ n, print_rest (x :: rest) (n + 1) = print_rest rest n ++ printf_0llu MAGNITUDE x := by
  intro n
  induction n with
  | zero => simp [print_rest]
  | succ n ih =>
    rw [print_rest, ih]
    conv_rhs => rw [print_rest]
    simp

theorem print_rest_append (l r : List Nat) :
    ∀ n, n ≤ l.length → print_rest (l ++ r) n = print_rest l n := by
  intro n
  induction n with
  | zero => intro _; rfl
  | succ n ih =>
    intro hn
    rw [print_rest, print_rest, ih (by omega)]
    congr 2
    simp [List.getD_eq_getElem?_getD, List.getElem?_append_left (show n < l.length by omega)]

/-- Printing magnitude limbs without a leading zero limb writes the decimal
digits of their value. -/
theorem print_magnitude : ∀ (mag : List Nat) (j : Nat), mag.length = j + 1 →
    (∀ x ∈ mag, x < B) → (j = 0 ∨ B ^ j ≤ limbsValue mag) →
    printf_llu (mag.getD j 0) ++ print_rest mag j = Nat.toDigits 10 (limbsValue mag)
  | [], _, hl, _, _ => by simp at hl
  | [x], j, hl, _, _ => by
    have hj : j = 0 := by simpa using hl
    subst hj
    simp [print_rest, printf_llu, limbsValue]
  | x :: y :: rest, j, hl, hb, hc => by
    obtain ⟨j', rfl⟩ : ∃ j', j = j' + 1 := ⟨j - 1, by simp at hl; omega⟩
    have hx : x < B := hb x (List.mem_cons_self _ _)
    have hbr : ∀ z ∈ y :: rest, z < B := fun z hz => hb z (List.mem_cons_of_mem _ hz)
    have hlr : (y :: rest).length = j' + 1 := by simpa using hl
    have hP : 0 < B ^ j' := pow_pos B_pos _
    have hv : B ^ j' ≤ limbsValue (y :: rest) := by
      rcases hc with h0 | h1
      · omega
      · have e : limbsValue (x :: y :: rest) = x + B * limbsValue (y :: rest) := rfl
        rw [e, pow_succ, Nat.mul_comm] at h1
        have h2 : B * B ^ j' < B * (limbsValue (y :: rest) + 1) := by
          rw [Nat.mul_add, Nat.mul_one]; omega
        have := Nat.lt_of_mul_lt_mul_left h2
        omega
    have ih := print_magnitude (y :: rest) j' hlr hbr (Or.inr hv)
    have e1 : (x :: y :: rest).getD (j' + 1) 0 = (y :: rest).getD j' 0 := rfl
    have e2 : limbsValue (x :: y :: rest) = x + B * limbsValue (y :: rest) := rfl
    rw [e1, print_rest_cons, ← List.append_assoc, ih, e2, toDigits_limb x _ hx (by omega)]

theorem print_big_int_value (mag : List Nat) (j : Nat) (hl : mag.length = j + 1)
    (hb : ∀ x ∈ mag, x < B) (hc : j = 0 ∨ B ^ j ≤ limbsValue mag) :
    print_big_int (mag ++ [0])
      = some (Nat.toDigits 10 (limbsValue mag) ++ [Char.ofNat 10]) := by
  have hlen : (mag ++ [0]).length = j + 2 := by simp [hl]
  rw [print_big_int_nonneg (mag ++ [0]) j hlen (getD_append_last mag 0 (j + 1) hl)]
  unfold printLimbs
  rw [hlen, show j + 2 - 2 = j from rfl, print_rest_append mag [0] j (by omega)]
  have e : (mag ++ [0]).getD j 0 = mag.getD j 0 := by
    simp [List.getD_eq_getElem?_getD, List.getElem?_append_left (show j < mag.length by omega)]
  rw [e, print_magnitude mag j hl hb hc]

/-! ## Parsing -/

theorem to_big_integer_eq (s : List Char) :
    to_big_integer s = to_big_integer_loop s ((s.length + 17) / 18) s.length ++ [0] := by
  have h : (if s.length % MAGNITUDE = 0 then s.length / MAGNITUDE else s.length / MAGNITUDE + 1)
      = (s.length + 17) / 18 := by
    simp only [MAGNITUDE]
    split <;> omega
  unfold to_big_integer
  simp only [h]

theorem to_big_integer_loop_succ (s : List Char) (k i : Nat) :
    to_big_integer_loop s (k + 1) i
      = decimalValue ((s.take i).drop (i - 18)) :: to_big_integer_loop s k (i - 18) := by
  have h : (if i < MAGNITUDE then 0 else i - MAGNITUDE) = i - 18 := by
    simp only [MAGNITUDE]
    split <;> omega
  simp only [to_big_integer_loop, h, sscanf_lld]

theorem to_big_integer_loop_length (s : List Char) :
    ∀ k i, (to_big_integer_loop s k i).length = k := by
  intro k
  induction k with
  | zero => intro i; rfl
  | succ k ih => intro i; rw [to_big_integer_loop_succ]; simp [ih]

/-- Limb `j` is the chunk of the string that ends `18 * j` characters before
index `i` and starts eighteen characters earlier (or at the left edge). -/
theorem to_big_integer_loop_getD (s : List Char) :
    ∀ k i j, j < k → (to_big_integer_loop s k i).getD j 0
      = decimalValue ((s.take (i - 18 * j)).drop (i - 18 * (j + 1))) := by
  intro k
  induction k with
  | zero => intro i j hj; omega
  | succ k ih =>
    intro i j hj
    rw [to_big_integer_loop_succ]
    cases j with
    | zero => simp
    | succ j =>
      have e : ∀ (x : Nat) (l : List Nat), (x :: l).getD (j + 1) 0 = l.getD j 0 := fun _ _ => rfl
      rw [e, ih (i - 18) j (by omega)]
      have e1 : i - 18 - 18 * j = i - 18 * (j + 1) := by omega
      have e2 : i - 18 - 18 * (j + 1) = i - 18 * (j + 1 + 1) := by omega
      rw [e1, e2]

theorem take_split (s : List Char) (i : Nat) :
    s.take i = s.take (i - 18) ++ (s.take i).drop (i - 18) := by
  have h := (List.take_append_drop (i - 18) (s.take i)).symm
  rw [List.take_take, Nat.min_eq_left (Nat.sub_le _ _)] at h
  exact h

theorem to_big_integer_loop_value (s : List Char) :
    ∀ k i, i ≤ s.length → i ≤ 18 * k →
      limbsValue (to_big_integer_loop s k i) = decimalValue (s.take i) := by
  intro k
  induction k with
  | zero =>
    intro i _ hk
    have : i = 0 := by omega
    subst this
    simp [to_big_integer_loop, limbsValue, decimalValue]
  | succ k ih =>
    intro i hi hk
    rw [to_big_integer_loop_succ]
    simp only [limbsValue]
    rw [ih (i - 18) (by omega) (by omega)]
    conv_rhs => rw [take_split s i, decimalValue_append]
    by_cases h18 : i < 18
    · have e : i - 18 = 0 := by omega
      rw [e]
      simp [decimalValue]
    · have hlen : ((s.take i).drop (i - 18)).length = 18 := by
        simp only [List.length_drop, List.length_take]
        omega
      rw [hlen]
      have hB : B = 10 ^ 18 := rfl
      rw [hB]
      ring

theorem is_digit_sequence_chunk (s : List Char) (h : is_digit_sequence s = true) (i j : Nat) :
    is_digit_sequence ((s.take i).drop j) = true := by
  rw [is_digit_sequence_iff] at h ⊢
  intro c hc
  exact h c (List.mem_of_mem_take (List.mem_of_mem_drop hc))

theorem to_big_integer_loop_lt (s : List Char) (h : is_digit_sequence s = true) :
    ∀ k i, ∀ x ∈ to_big_integer_loop s k i, x < B := by
  intro k
  induction k with
  | zero => intro i x hx; simp [to_big_integer_loop] at hx
  | succ k ih =>
    intro i x hx
    rw [to_big_integer_loop_succ] at hx
    rcases List.mem_cons.mp hx with h1 | h1
    · rw [h1]
      have hlt := decimalValue_lt _ (is_digit_sequence_chunk s h i (i - 18))
      have hlen : ((s.take i).drop (i - 18)).length ≤ 18 := by
        simp only [List.length_drop, List.length_take]
        omega
      have hpow : 10 ^ ((s.take i).drop (i - 18)).length ≤ 10 ^ 18 :=
        Nat.pow_le_pow_right (by decide) hlen
      have hB : B = 10 ^ 18 := rfl
      omega
    · exact ih (i - 18) x h1

/-- A canonical string that needs `p >= 2` limbs denotes at least `B^(p-1)`. -/
theorem decimalValue_ge_pow (s : List Char) (h : Canonical s) (j : Nat)
    (hj : (s.length + 17) / 18 = j + 2) : B ^ (j + 1) ≤ decimalValue s := by
  have h0 : s ≠ ['0'] := by
    intro h0
    subst h0
    simp at hj
  have hge := decimalValue_ge s h h0
  have hlen : 18 * (j + 1) + 1 ≤ s.length := by omega
  have hpow : 10 ^ (18 * (j + 1) + 1) ≤ 10 ^ s.length := Nat.pow_le_pow_right (by decide) hlen
  have hB : B ^ (j + 1) = 10 ^ (18 * (j + 1)) := by
    have hB : B = 10 ^ 18 := rfl
    rw [hB, ← pow_mul]
  rw [hB]
  rw [pow_succ] at hpow
  omega

/-- The array `to_big_integer` returns: magnitude limbs and the sign limb. -/
theorem to_big_integer_parts (s : List Char) (hd : is_digit_sequence s = true) :
    ∃ mag, to_big_integer s = mag ++ [0] ∧ mag.length = (s.length + 17) / 18 ∧
      (∀ x ∈ mag, x < B) ∧ limbsValue mag = decimalValue s := by
  refine ⟨to_big_integer_loop s ((s.length + 17) / 18) s.length, to_big_integer_eq s,
    to_big_integer_loop_length s _ _, to_big_integer_loop_lt s hd _ _, ?_⟩
  rw [to_big_integer_loop_value s _ s.length le_rfl (by omega), List.take_length]

theorem digitValue_digitChar (d : Nat) (h : d < 10) :
    digitValue (Nat.digitChar d) = d ∧ isdigit (Nat.digitChar d) = true := by
  have := digitChar_toNat d h
  simp only [digitValue, isdigit, this, decide_eq_true_eq]
  omega

/-- The digits `Nat.toDigits 10 n` form the canonical decimal string of `n`. -/
theorem canonical_toDigits (n : Nat) :
    Canonical (Nat.toDigits 10 n) ∧ decimalValue (Nat.toDigits 10 n) = n := by
  rcases Nat.eq_zero_or_pos n with h0 | hp
  · subst h0; decide
  · have hlt : ∀ d ∈ Nat.digits 10 n, d < 10 := fun d hd => Nat.digits_lt_base (by decide) hd
    have hne : Nat.digits 10 n ≠ [] := Nat.digits_ne_nil_iff_ne_zero.mpr (by omega)
    have hmap : ∀ (l : List Nat), (∀ d ∈ l, d < 10) →
        l.map (digitValue ∘ Nat.digitChar) = l := by
      intro l hl
      induction l with
      | nil => rfl
      | cons d ds ih =>
        simp only [List.map_cons, Function.comp]
        rw [(digitValue_digitChar d (hl d (List.mem_cons_self _ _))).1]
        congr 1
        exact ih (fun x hx => hl x (List.mem_cons_of_mem _ hx))
    rw [toDigits_eq n hp]
    refine ⟨⟨by simpa using hne, ?_, ?_⟩, ?_⟩
    · rw [is_digit_sequence_iff]
      intro c hc
      obtain ⟨d, hd, rfl⟩ := List.mem_map.mp hc
      exact (digitValue_digitChar d (hlt d (List.mem_reverse.mp hd))).2
    · intro hhead
      exfalso
      have hlast := Nat.getLast_digit_ne_zero 10 (m := n) (by omega)
      have hmem : (Nat.digits 10 n).getLast hne ∈ Nat.digits 10 n := List.getLast_mem hne
      have hh : (List.map Nat.digitChar (Nat.digits 10 n).reverse).head?
          = some (Nat.digitChar ((Nat.digits 10 n).getLast hne)) := by
        rw [List.head?_map, List.head?_reverse, List.getLast?_eq_getLast _ hne]
        rfl
      rw [hh] at hhead
      have hz := congrArg digitValue (Option.some.inj hhead)
      rw [(digitValue_digitChar _ (hlt _ hmem)).1] at hz
      exact hlast hz
    · rw [decimalValue_eq_ofDigits]
      simp only [List.map_reverse, List.reverse_reverse, List.map_map]
      rw [hmap _ hlt, Nat.ofDigits_digits]

/-! ## Further facts about addition and negation -/

/-- The result of `add_big_ints` on limbs below `B`, in terms of the limbs its
loop writes. -/
theorem add_big_ints_spec (a b : List Nat) (ha : ∀ x ∈ a, x < B) (hb : ∀ x ∈ b, x < B)
    (m : Nat) (hm : max a.length b.length = m + 1) :
    ∃ sum cout, sum.length = m + 1 ∧ (∀ x ∈ sum, x < B) ∧ cout ≤ 1 ∧
      limbsValue sum + B ^ (m + 1) * cout = limbsValue a + limbsValue b ∧
      add_big_ints a b = some (if sum.getD m 0 = 1 then sum ++ [0] else sum) := by
  obtain ⟨hlt, cout, hco, hval⟩ := add_loop_spec (m + 1) a b 0 (by omega) (by omega) ha hb
    (Nat.zero_le _)
  refine ⟨add_loop a b B (m + 1) 0 0, cout, add_loop_length _ _ _ _ _ _, hlt, hco, hval, ?_⟩
  rw [add_big_ints_eq a b (by omega), hm]
  rfl

theorem add_big_ints_limbs_lt (a b : List Nat) (ha : ∀ x ∈ a, x < B) (hb : ∀ x ∈ b, x < B)
    (hm : 0 < max a.length b.length) :
    ∃ r, add_big_ints a b = some r ∧ ∀ x ∈ r, x < B := by
  obtain ⟨m, hm'⟩ : ∃ m, max a.length b.length = m + 1 :=
    ⟨max a.length b.length - 1, by omega⟩
  obtain ⟨sum, cout, _, hlt, _, _, hr⟩ := add_big_ints_spec a b ha hb m hm'
  refine ⟨_, hr, ?_⟩
  split
  · exact mem_append_zero sum hlt
  · exact hlt

theorem limbsValue_eq_zero_iff (l : List Nat) : limbsValue l = 0 ↔ ∀ x ∈ l, x = 0 := by
  induction l with
  | nil => simp [limbsValue]
  | cons y ys ih =>
    have hB := B_pos
    simp only [limbsValue, List.mem_cons, forall_eq_or_imp, ← ih]
    constructor
    · intro h
      have h1 : y = 0 := by omega
      have h2 : B * limbsValue ys = 0 := by omega
      exact ⟨h1, (Nat.mul_eq_zero.mp h2).resolve_left (by omega)⟩
    · rintro ⟨h1, h2⟩
      rw [h1, h2]; simp

theorem getD_lt (l : List Nat) (hl : ∀ x ∈ l, x < B) (i : Nat) : l.getD i 0 < B := by
  rw [List.getD_eq_getElem?_getD]
  cases h : l[i]? with
  | none => exact B_pos
  | some x => exact hl x (List.getElem?_mem h)

theorem carryInto_le (a b : List Nat) (i : Nat) : carryInto a b i ≤ 1 := by
  cases i with
  | zero => simp [carryInto]
  | succ i => rw [carryInto]; split <;> omega

/-- One step of the loop of `add_big_ints`, started with the carry of the
specification, writes the limb of the specification and passes on its carry. -/
theorem add_loop_step (a b : List Nat) (ha : ∀ x ∈ a, x < B) (hb : ∀ x ∈ b, x < B)
    (k i : Nat) :
    add_loop a b B (k + 1) i (carryInto a b i)
      = sumLimb a b i :: add_loop a b B k (i + 1) (carryInto a b (i + 1)) := by
  have h1 := getD_lt a ha i
  have h2 := getD_lt b hb i
  have h3 := carryInto_le a b i
  have hU := B_lt_ULL
  have hmod : (a.getD i 0 + b.getD i 0 + carryInto a b i) % ULL
      = a.getD i 0 + b.getD i 0 + carryInto a b i := Nat.mod_eq_of_lt (by omega)
  rw [add_loop_succ, hmod]
  have hc : carryInto a b (i + 1)
      = if a.getD i 0 + b.getD i 0 + carryInto a b i ≥ B then 1 else 0 := rfl
  unfold sumLimb
  rw [hc]
  split
  · rename_i hge
    rw [Nat.mod_eq_sub_mod hge, Nat.mod_eq_of_lt (by omega)]
  · rename_i hlt
    rw [Nat.mod_eq_of_lt (by omega)]

theorem add_loop_getD (a b : List Nat) (ha : ∀ x ∈ a, x < B) (hb : ∀ x ∈ b, x < B) :
    ∀ (k i j : Nat), j < k →
      (add_loop a b B k i (carryInto a b i)).getD j 0 = sumLimb a b (i + j) := by
  intro k
  induction k with
  | zero => intro i j hj; omega
  | succ k ih =>
    intro i j hj
    rw [add_loop_step a b ha hb]
    cases j with
    | zero => rfl
    | succ j =>
      have e : ∀ (x : Nat) (l : List Nat), (x :: l).getD (j + 1) 0 = l.getD j 0 := fun _ _ => rfl
      rw [e, ih (i + 1) j (by omega)]
      congr 1
      omega

/-! ## Subtraction of parsed operands -/

/-- What the proofs about subtraction use of a parsed canonical string. -/
theorem to_big_integer_operand (s : List Char) (hs : Canonical s) :
    ∃ j, (s.length + 17) / 18 = j + 1 ∧ (to_big_integer s).length = j + 2 ∧
      (∀ x ∈ to_big_integer s, x < B) ∧ limbsValue (to_big_integer s) = decimalValue s ∧
      (to_big_integer s).getD (j + 1) 0 = 0 ∧ decimalValue s < B ^ (j + 1) := by
  obtain ⟨mag, hm, hlen, hb, hv⟩ := to_big_integer_parts s hs.2.1
  have hpos : 0 < s.length := List.length_pos.mpr hs.1
  obtain ⟨j, hj⟩ : ∃ j, (s.length + 17) / 18 = j + 1 := ⟨(s.length + 17) / 18 - 1, by omega⟩
  have hml : mag.length = j + 1 := by rw [hlen, hj]
  refine ⟨j, hj, by rw [hm]; simp [hml], by rw [hm]; exact mem_append_zero mag hb, ?_, ?_, ?_⟩
  · rw [hm, limbsValue_append, hv]; simp
  · rw [hm]; exact getD_append_last mag 0 (j + 1) hml
  · have := limbsValue_lt mag hb
    rw [hml, hv] at this
    exact this

theorem top_limb_zero (l : List Nat) (k : Nat) (hl : l.length = k + 2) (hb : ∀ x ∈ l, x < B)
    (h : limbsValue l < B ^ (k + 1)) : l.getD (k + 1) 0 = 0 := by
  apply top_limb_eq l (k + 1) 0 hl hb
  · simp
  · simpa using h

theorem top_limb_neg (l : List Nat) (k : Nat) (hl : l.length = k + 2) (hb : ∀ x ∈ l, x < B)
    (h : (B - 1) * B ^ (k + 1) ≤ limbsValue l) : l.getD (k + 1) 0 = B - 1 := by
  apply top_limb_eq l (k + 1) (B - 1) hl hb h
  have := limbsValue_lt l hb
  rw [hl, pow_split k] at this
  rw [Nat.add_mul, Nat.one_mul]
  exact this

theorem top_limb_le_one (l : List Nat) (k : Nat) (hl : l.length = k + 2)
    (hb : ∀ x ∈ l, x < B) (h : limbsValue l < 2 * B ^ (k + 1)) :
    l.getD (k + 1) 0 = 0 ∨ l.getD (k + 1) 0 = 1 := by
  obtain ⟨lo, _⟩ := top_limb_bounds l (k + 1) hl hb
  by_contra hcon
  have h2 : 2 ≤ l.getD (k + 1) 0 := by omega
  have := Nat.mul_le_mul_right (B ^ (k + 1)) h2
  omega

theorem decimalValue_pos (t : List Char) (ht : Canonical t) (h0 : t ≠ ['0']) :
    0 < decimalValue t := by
  have := decimalValue_ge t ht h0
  have hp : 0 < 10 ^ t.length := pow_pos (by decide) _
  omega

/-- The negation of a parsed operand other than zero. -/
theorem complement_to_big_integer (t : List Char) (ht : Canonical t) (j : Nat)
    (hj : (t.length + 17) / 18 = j + 1) (hpos : 0 < decimalValue t) :
    ∃ c, complement_big_int (to_big_integer t) = some c ∧ c.length = j + 2 ∧
      (∀ x ∈ c, x < B) ∧ limbsValue c + decimalValue t = B ^ (j + 2) := by
  obtain ⟨j', hj', hl, hb, hv, htop, hlt⟩ := to_big_integer_operand t ht
  have e : j' = j := by omega
  subst e
  have hB1 : (1 : Nat) < B - 1 := by decide
  have hQ : B ^ (j' + 1) ≤ (B - 1) * B ^ (j' + 1) := Nat.le_mul_of_pos_left _ (by omega)
  obtain ⟨c, hc, hcl, hcb, hcv, _⟩ := complement_regular (to_big_integer t) j' hl hb
    (Or.inl htop) (by rw [hv]; omega)
  refine ⟨c, hc, hcl, hcb, ?_⟩
  rw [hv] at hcv
  rcases hcv with h1 | h2
  · exact h1
  · omega

/-! ## Reading a line -/

theorem skip_zeros_spec (l : List Char) :
    ∃ z, (∀ c ∈ z, c = '0') ∧ l = z ++ skip_zeros l ∧ (skip_zeros l).head? ≠ some '0' := by
  induction l with
  | nil => exact ⟨[], by simp, rfl, by simp [skip_zeros]⟩
  | cons c cs ih =>
    by_cases hc : c = '0'
    · obtain ⟨z, hz, hl, hh⟩ := ih
      refine ⟨c :: z, ?_, ?_, ?_⟩
      · intro x hx
        rcases List.mem_cons.mp hx with h | h
        · rw [h]; exact hc
        · exact hz x h
      · simp only [skip_zeros, hc, if_true, List.cons_append]
        rw [← hl]
      · simpa only [skip_zeros, hc, if_true] using hh
    · refine ⟨[], by simp, by simp [skip_zeros, hc], ?_⟩
      simp only [skip_zeros, hc, if_false, List.head?_cons]
      intro h
      exact hc (Option.some.inj h)

theorem decimalValue_zeros (z r : List Char) (hz : ∀ c ∈ z, c = '0') :
    decimalValue (z ++ r) = decimalValue r := by
  induction z with
  | nil => rfl
  | cons c cs ih =>
    have hc : c = '0' := hz c (List.mem_cons_self _ _)
    have h0 : digitValue '0' = 0 := by decide
    rw [← ih (fun x hx => hz x (List.mem_cons_of_mem _ hx))]
    subst hc
    simp [decimalValue, h0]

theorem all_zeros_last (l : List Char) (hne : l ≠ []) (hz : ∀ c ∈ l, c = '0') :
    l.drop (l.length - 1) = ['0'] := by
  have hpos : 0 < l.length := List.length_pos.mpr hne
  have hlen : (l.drop (l.length - 1)).length = 1 := by
    rw [List.length_drop]; omega
  match hd : l.drop (l.length - 1), hlen with
  | [x], _ =>
    have hx : x ∈ l.drop (l.length - 1) := by rw [hd]; exact List.mem_cons_self _ _
    rw [hz x (List.mem_of_mem_drop hx)]

theorem is_digit_sequence_append (p q : List Char) :
    is_digit_sequence (p ++ q) = true ↔
      is_digit_sequence p = true ∧ is_digit_sequence q = true := by
  simp only [is_digit_sequence_iff, List.mem_append]
  constructor
  · intro h
    exact ⟨fun c hc => h c (Or.inl hc), fun c hc => h c (Or.inr hc)⟩
  · rintro ⟨h1, h2⟩ c (hc | hc)
    · exact h1 c hc
    · exact h2 c hc

theorem cstring_of_no_nul (l : List Char) (h : ∀ c, c ∈ l → c ≠ Char.ofNat 0) :
    cstring l = l := by
  unfold cstring
  rw [List.takeWhile_eq_self_iff]
  intro c hc
  simpa using h c hc

theorem cstring_of_digits (l : List Char) (h : is_digit_sequence l = true) :
    cstring l = l := by
  apply cstring_of_no_nul
  intro c hc h0
  have hd := (is_digit_sequence_iff l).mp h c hc
  rw [h0] at hd
  revert hd
  decide

/-- What `get_digit_sequence` does with the characters of a line, at least
one, followed by the newline. -/
theorem get_digit_sequence_line (body : List Char) (hne : body ≠ []) :
    get_digit_sequence (some (body ++ [Char.ofNat 10]))
      = if is_digit_sequence (cstring body) = true then
          (if skip_zeros (cstring body) = [] then
            (if cstring body = [] then Except.error Fatal.pointer_before_buffer
             else Except.ok ((cstring body).drop ((cstring body).length - 1)))
           else Except.ok (skip_zeros (cstring body)))
        else Except.error Fatal.not_an_integer := by
  have hpos : 0 < body.length := List.length_pos.mpr hne
  have hlen : ¬ (body ++ [Char.ofNat 10]).length ≤ 1 := by
    simp only [List.length_append, List.length_singleton]; omega
  unfold get_digit_sequence
  simp only [hlen, if_false, List.dropLast_concat]
  cases is_digit_sequence (cstring body) <;> simp

theorem store_mid (pre post : List Nat) (x v : Nat) :
    store (pre ++ x :: post) pre.length v = some (pre ++ v :: post) := by
  have hlt : pre.length < (pre ++ x :: post).length := by
    simp only [List.length_append, List.length_cons]; omega
  unfold store
  rw [if_pos hlt]
  congr 1
  induction pre with
  | nil => rfl
  | cons y ys ih =>
    have hlt' : ys.length < (ys ++ x :: post).length := by
      simp only [List.length_append, List.length_cons]; omega
    simp only [List.cons_append, List.length_cons, List.set_cons_succ]
    rw [ih hlt']

theorem read_checked (l : List Nat) (i : Nat) :
    (if i ≥ l.length then some 0 else l[i]?) = some (l.getD i 0) := by
  split
  · rename_i h
    simp [List.getD_eq_getElem?_getD, List.getElem?_eq_none h]
  · rename_i h
    have hlt : i < l.length := by omega
    simp [List.getD_eq_getElem?_getD, List.getElem?_eq_getElem hlt]

/-- Inside the loop every access is within bounds: on an array with room for
the `k` limbs still to be written from index `i` on, the checked loop writes
the limbs of the unchecked one. -/
theorem add_loop_checked_eq (op1 op2 : List Nat) (md : Nat) :
    ∀ (k i c : Nat) (pre old post : List Nat), pre.length = i → old.length = k →
      add_loop_checked op1 op2 md k i c (pre ++ old ++ post)
        = some (pre ++ add_loop op1 op2 md k i c ++ post) := by
  intro k
  induction k with
  | zero =>
    intro i c pre old post _ hold
    have : old = [] := List.length_eq_zero.mp hold
    subst this
    simp [add_loop_checked, add_loop]
  | succ k ih =>
    intro i c pre old post hpre hold
    match old, hold with
    | x :: old1, hold1 =>
      have hl1 : old1.length = k := by simpa using hold1
      have hst : ∀ v, store (pre ++ x :: old1 ++ post) i v = some (pre ++ [v] ++ old1 ++ post) := by
        intro v
        have := store_mid pre (old1 ++ post) x v
        rw [hpre] at this
        simpa using this
      rw [add_loop_checked, read_checked, read_checked, add_loop_succ]
      simp only [Option.some_bind, hst]
      split
      · rw [ih (i + 1) 1 (pre ++ [_]) old1 post (by simp [hpre]) hl1]
        simp
      · rw [ih (i + 1) 0 (pre ++ [_]) old1 post (by simp [hpre]) hl1]
        simp

/-- The checked `add_big_ints` on operands that are not both empty: it returns
what the unchecked model returns unless the growth branch is taken, and in the
growth branch the write after the `realloc` is outside the block. -/
theorem add_big_ints_checked_eq (op1 op2 : List Nat) (m : Nat)
    (hm : max op1.length op2.length = m + 1) :
    add_big_ints_checked op1 op2
      = if (add_loop op1 op2 (power_of_ten MAGNITUDE) (m + 1) 0 0).getD m 0 = 1 then none
        else add_big_ints op1 op2 := by
  have hmax : (if op1.length > op2.length then op1.length else op2.length) = m + 1 := by
    split <;> omega
  have hmalloc : malloc_limbs ((m + 1) * SIZEOF_LONG_LONG) = [] ++ List.replicate (m + 1) 0 ++ [] := by
    simp [malloc_limbs, SIZEOF_LONG_LONG]
  have hlen := add_loop_length op1 op2 (power_of_ten MAGNITUDE) (m + 1) 0 0
  unfold add_big_ints_checked add_big_ints
  simp only [hmax]
  rw [hmalloc, add_loop_checked_eq op1 op2 _ (m + 1) 0 0 [] _ [] rfl (by simp)]
  simp only [List.nil_append, List.append_nil, Option.some_bind, Nat.add_one_ne_zero, if_false,
    Nat.add_sub_cancel]
  generalize add_loop op1 op2 (power_of_ten MAGNITUDE) (m + 1) 0 0 = sum at hlen
  have hget : sum[m]? = some (sum.getD m 0) := by
    have hlt : m < sum.length := by omega
    simp [List.getD_eq_getElem?_getD, List.getElem?_eq_getElem hlt]
  rw [hget, Option.some_bind]
  split
  · unfold store
    rw [if_neg]
    simp only [realloc_limbs, SIZEOF_LONG_LONG, List.length_take, List.length_append,
      List.length_replicate]
    omega
  · rfl

/-! ## What the code computes when every write lands

Facts about `add_big_ints`, `complement_big_int`, `subtract_big_ints` and
`print_big_int`, the functions that take every write to land in its array.
They say which limbs and characters the code works out; they say nothing about
the accesses, which the checked functions follow. -/

/-- When every write lands: for a canonical string `s` the `printf` calls of
`print_big_int`, applied to `to_big_integer(s)`, are given `s` and the newline. -/
theorem print_to_big_integer (s : List Char) (h : Canonical s) :
    print_big_int (to_big_integer s) = some (s ++ [Char.ofNat 10]) := by
  obtain ⟨mag, hm, hlen, hb, hv⟩ := to_big_integer_parts s h.2.1
  have hpos : 0 < s.length := List.length_pos.mpr h.1
  obtain ⟨j, hj⟩ : ∃ j, (s.length + 17) / 18 = j + 1 := ⟨(s.length + 17) / 18 - 1, by omega⟩
  have hc : j = 0 ∨ B ^ j ≤ limbsValue mag := by
    cases j with
    | zero => left; rfl
    | succ j => right; rw [hv]; exact decimalValue_ge_pow s h j hj
  rw [hm, print_big_int_value mag j (by rw [hlen, hj]) hb hc, hv, toDigits_decimalValue s h]

/-- When every write lands: for canonical strings `s` and `t` the limbs computed
by `add_big_ints` from the parsed operands are rendered by the `printf` calls
of `print_big_int` as the decimal digits of `s + t`. -/
theorem print_add_big_ints (s t : List Char) (hs : Canonical s) (ht : Canonical t) :
    (add_big_ints (to_big_integer s) (to_big_integer t)).bind print_big_int
      = some (Nat.toDigits 10 (decimalValue s + decimalValue t) ++ [Char.ofNat 10]) ∧
    Canonical (Nat.toDigits 10 (decimalValue s + decimalValue t)) ∧
    decimalValue (Nat.toDigits 10 (decimalValue s + decimalValue t))
      = decimalValue s + decimalValue t := by
  refine ⟨?_, canonical_toDigits _⟩
  obtain ⟨ma, hma, hla, hba, hva⟩ := to_big_integer_parts s hs.2.1
  obtain ⟨mb, hmb, hlb, hbb, hvb⟩ := to_big_integer_parts t ht.2.1
  have hsp : 0 < s.length := List.length_pos.mpr hs.1
  have htp : 0 < t.length := List.length_pos.mpr ht.1
  obtain ⟨j, hj⟩ : ∃ j, max ma.length mb.length = j + 1 :=
    ⟨max ma.length mb.length - 1, by omega⟩
  have hmax : max (ma ++ [0]).length (mb ++ [0]).length = j + 2 := by
    simp only [List.length_append, List.length_singleton]; omega
  have hB2 : 2 ≤ B := by decide
  have hPj : 0 < B ^ (j + 1) := pow_pos B_pos _
  have hP2 : 2 * B ^ (j + 1) ≤ B ^ (j + 2) := by
    rw [pow_succ B (j + 1), Nat.mul_comm]
    exact Nat.mul_le_mul_left _ hB2
  have hsa : decimalValue s < B ^ (j + 1) := by
    have h1 := limbsValue_lt ma hba
    have h2 : B ^ ma.length ≤ B ^ (j + 1) := Nat.pow_le_pow_right B_pos (by omega)
    omega
  have hsb : decimalValue t < B ^ (j + 1) := by
    have h1 := limbsValue_lt mb hbb
    have h2 : B ^ mb.length ≤ B ^ (j + 1) := Nat.pow_le_pow_right B_pos (by omega)
    omega
  have hlow : j = 0 ∨ B ^ j ≤ decimalValue s + decimalValue t := by
    cases j with
    | zero => left; rfl
    | succ i =>
      right
      rcases Nat.le_total mb.length ma.length with hle | hle
      · have := decimalValue_ge_pow s hs i (by omega)
        omega
      · have := decimalValue_ge_pow t ht i (by omega)
        omega
  rw [hma, hmb, add_big_ints_eq _ _ (by rw [hmax]; omega), hmax]
  obtain ⟨hlt, cout, hco, hval⟩ := add_loop_spec (j + 2) (ma ++ [0]) (mb ++ [0]) 0
    (by simp only [List.length_append, List.length_singleton]; omega)
    (by simp only [List.length_append, List.length_singleton]; omega)
    (mem_append_zero ma hba) (mem_append_zero mb hbb) (Nat.zero_le _)
  have hlen := add_loop_length (ma ++ [0]) (mb ++ [0]) B (j + 2) 0 0
  generalize add_loop (ma ++ [0]) (mb ++ [0]) B (j + 2) 0 0 = sum at hlt hval hlen ⊢
  rw [limbsValue_append, limbsValue_append, hva, hvb] at hval
  simp only [Nat.mul_zero, Nat.add_zero] at hval
  have hV : limbsValue sum = decimalValue s + decimalValue t := by
    have hc : cout = 0 ∨ cout = 1 := by omega
    rcases hc with rfl | rfl
    · omega
    · omega
  obtain ⟨lo, hi⟩ := top_limb_bounds sum (j + 1) hlen hlt
  have htop : sum.getD (j + 1) 0 = 0 ∨ sum.getD (j + 1) 0 = 1 := by
    by_contra hcon
    have h2 : 2 ≤ sum.getD (j + 1) 0 := by omega
    have := Nat.mul_le_mul_right (B ^ (j + 1)) h2
    omega
  rw [show j + 2 - 1 = j + 1 from rfl]
  rcases htop with h0 | h1
  · rw [if_neg (by omega), Option.some_bind]
    have hsplit : sum = sum.take (j + 1) ++ [0] := by
      have := limbs_split sum (j + 1) hlen
      rwa [h0] at this
    have hvm : limbsValue (sum.take (j + 1)) = decimalValue s + decimalValue t := by
      have := congrArg limbsValue hsplit
      rw [limbsValue_append, hV] at this
      omega
    rw [hsplit, print_big_int_value (sum.take (j + 1)) j (by simp [hlen])
      (fun x hx => hlt x (List.mem_of_mem_take hx)) (by rw [hvm]; exact hlow), hvm]
  · rw [if_pos h1, Option.some_bind,
      print_big_int_value sum (j + 1) hlen hlt (Or.inr (by rw [h1] at lo; omega)), hV]

/-- When every write lands: the limbs computed by `complement_big_int` from a
well-formed big integer form a well-formed big integer of the opposite signed
value. -/
theorem complement_big_int_negates (a : List Nat) (h : WellFormed a) :
    ∃ c, complement_big_int a = some c ∧ WellFormed c ∧ signedValue c = - signedValue a := by
  obtain ⟨k, hl⟩ := wellFormed_length a h
  obtain ⟨hb, hs⟩ := (wellFormed_iff a k hl).mp h
  obtain ⟨b0, b1⟩ := sign_bounds a k hl hb
  have hP : 0 < B ^ (k + 1) := pow_pos B_pos _
  have hsplit := pow_split k
  have hB1 : (1 : Nat) < B - 1 := by decide
  have hQ : B ^ (k + 1) ≤ (B - 1) * B ^ (k + 1) := Nat.le_mul_of_pos_left _ (by omega)
  have hsa := signedValue_of_top a k hl
  by_cases hreg : limbsValue a = (B - 1) * B ^ (k + 1)
  · obtain ⟨sum, hc, hsl, hsb, hv, htop⟩ := complement_grows a k hl hb hreg
    have hlen : (sum ++ [0]).length = (k + 1) + 2 := by simp [hsl]
    have htop' := getD_append_last sum 0 (k + 2) hsl
    refine ⟨sum ++ [0], hc, ?_, ?_⟩
    · exact (wellFormed_iff _ (k + 1) hlen).mpr ⟨mem_append_zero sum hsb, Or.inl htop'⟩
    · have ha : a.getD (k + 1) 0 = B - 1 := by
        rcases hs with h0 | h1
        · have := b0 h0; omega
        · exact h1
      rw [signedValue_of_top _ (k + 1) hlen, htop', if_neg (by omega), limbsValue_append, hv,
        hsa, if_pos ha, hreg]
      simp only [Nat.mul_zero, Nat.add_zero]
      omega
  · obtain ⟨c, hc, hcl, hcb, hcv, hct⟩ := complement_regular a k hl hb hs hreg
    have hclt := limbsValue_lt c hcb
    rw [hcl] at hclt
    refine ⟨c, hc, ?_, ?_⟩
    · refine (wellFormed_iff c k hcl).mpr ⟨hcb, ?_⟩
      rw [hct]; split
      · right; rfl
      · left; rfl
    · rw [signedValue_of_top c k hcl, hsa]
      rcases hs with h0 | h1
      · have hi := b0 h0
        by_cases hv : limbsValue a = 0
        · have hct' : c.getD (k + 1) 0 = 0 := by rw [hct, if_neg (by simp [hv])]
          rw [hct', h0, if_neg (by omega)]
          omega
        · have hct' : c.getD (k + 1) 0 = B - 1 := by rw [hct, if_pos ⟨h0, hv⟩]
          rw [hct', h0, if_pos rfl, if_neg (by omega)]
          omega
      · obtain ⟨lo, hi⟩ := b1 h1
        have hct' : c.getD (k + 1) 0 = 0 := by
          rw [hct, if_neg (by rw [h1]; omega)]
        rw [hct', h1, if_neg (by omega), if_pos rfl]
        omega

theorem add_loop_comm (op1 op2 : List Nat) (md : Nat) :
    ∀ (k i c : Nat), add_loop op1 op2 md k i c = add_loop op2 op1 md k i c := by
  intro k
  induction k with
  | zero => intro i c; simp [add_loop]
  | succ k ih =>
    intro i c
    rw [add_loop_succ, add_loop_succ, Nat.add_comm (op1.getD i 0) (op2.getD i 0), ih, ih]

theorem add_big_ints_swap (a b : List Nat) : add_big_ints a b = add_big_ints b a := by
  have hm : (if a.length > b.length then a.length else b.length)
      = (if b.length > a.length then b.length else a.length) := by
    split <;> split <;> omega
  unfold add_big_ints
  simp only [hm, add_loop_comm a b]

theorem add_big_ints_some (a b : List Nat) (h : 0 < max a.length b.length) :
    ∃ r, add_big_ints a b = some r := ⟨_, add_big_ints_eq a b h⟩

/-- When every write lands: the limbs computed by `add_big_ints` and by
`complement_big_int` from limbs below `B` are below `B`. -/
theorem limbs_stay_in_range (a b : List Nat) (hane : a ≠ []) (hbne : b ≠ [])
    (ha : ∀ x ∈ a, x < B) (hb : ∀ x ∈ b, x < B) :
    (∃ r, add_big_ints a b = some r ∧ ∀ x ∈ r, x < B) ∧
    (∃ c, complement_big_int a = some c ∧ ∀ x ∈ c, x < B) ∧
    (∀ x ∈ a, x ≤ B - 1 ∧
      ((power_of_ten MAGNITUDE + ULL - 1) % ULL + ULL - x) % ULL = B - 1 - x) := by
  have hla : 0 < a.length := List.length_pos.mpr hane
  have hlb : 0 < b.length := List.length_pos.mpr hbne
  refine ⟨add_big_ints_limbs_lt a b ha hb (by omega), ?_, ?_⟩
  · have hone : ∀ x ∈ ([1, 0] : List Nat), x < B := by
      intro x hx
      have hB : 1 < B := by decide
      simp at hx
      rcases hx with rfl | rfl <;> omega
    have hcb : ∀ x ∈ a.map (fun x => B - 1 - x), x < B := by
      intro x hx
      obtain ⟨y, hy, rfl⟩ := List.mem_map.mp hx
      have := ha y hy
      omega
    have := add_big_ints_limbs_lt (a.map (fun x => B - 1 - x)) [1, 0] hcb hone (by simp)
    unfold complement_big_int
    simp only []
    rw [complement_limbs a ha]
    exact this
  · intro x hx
    have hxB := ha x hx
    have hcl := complement_limbs [x] (by intro y hy; simp at hy; rw [hy]; exact hxB)
    simp only [List.map_cons, List.map_nil, List.cons.injEq, and_true] at hcl
    exact ⟨by omega, hcl⟩

/-- When every write lands: the limbs computed by `add_big_ints` are the
position-wise sums of the specification, followed by a limb `0` when the limb
at position `m - 1` is `1`. -/
theorem add_big_ints_limbwise (a b : List Nat) (hane : a ≠ []) (hbne : b ≠ [])
    (ha : ∀ x ∈ a, x < B) (hb : ∀ x ∈ b, x < B) :
    ∃ r, add_big_ints a b = some r ∧
      (∀ i, i < max a.length b.length → r.getD i 0 = sumLimb a b i) ∧
      (sumLimb a b (max a.length b.length - 1) = 1 →
        r.length = max a.length b.length + 1 ∧ r.getD (max a.length b.length) 0 = 0) ∧
      (sumLimb a b (max a.length b.length - 1) ≠ 1 → r.length = max a.length b.length) := by
  have hla : 0 < a.length := List.length_pos.mpr hane
  have hlb : 0 < b.length := List.length_pos.mpr hbne
  obtain ⟨m, hm⟩ : ∃ m, max a.length b.length = m + 1 :=
    ⟨max a.length b.length - 1, by omega⟩
  have hlen := add_loop_length a b B (m + 1) 0 0
  have hget : ∀ j, j < m + 1 → (add_loop a b B (m + 1) 0 0).getD j 0 = sumLimb a b j := by
    intro j hj
    have := add_loop_getD a b ha hb (m + 1) 0 j hj
    rw [Nat.zero_add] at this
    exact this
  rw [add_big_ints_eq a b (by omega), hm, show m + 1 - 1 = m from rfl, hget m (by omega)]
  generalize add_loop a b B (m + 1) 0 0 = sum at hlen hget
  by_cases htop : sumLimb a b m = 1
  · rw [if_pos htop]
    refine ⟨_, rfl, ?_, ?_, ?_⟩
    · intro i hi
      rw [← hget i hi]
      simp [List.getD_eq_getElem?_getD, List.getElem?_append_left (show i < sum.length by omega)]
    · intro _
      exact ⟨by simp [hlen], getD_append_last sum 0 (m + 1) hlen⟩
    · intro hne
      exact absurd htop hne
  · rw [if_neg htop]
    refine ⟨_, rfl, hget, ?_, ?_⟩
    · intro h1
      exact absurd h1 htop
    · intro _
      exact hlen

/-- When every write lands: for canonical `s` and `t`, `t` other than `"0"` and
`s` needing more limbs than `t`, the limbs computed by `subtract_big_ints` have
sign limb `0` and value `s - t + B^k`, `k` being the length of
`to_big_integer(t)`. -/
theorem subtract_big_ints_zero_extends (s t : List Char) (hs : Canonical s) (ht : Canonical t)
    (h0 : t ≠ ['0']) (hlen : (t.length + 17) / 18 < (s.length + 17) / 18) :
    ∃ r, subtract_big_ints (to_big_integer s) (to_big_integer t) = some r ∧
      WellFormed r ∧ r.getLast? = some 0 ∧
      (to_big_integer t).length = (t.length + 17) / 18 + 1 ∧
      (limbsValue r : Int) = (decimalValue s : Int) - (decimalValue t : Int)
        + ((B ^ ((t.length + 17) / 18 + 1) : Nat) : Int) := by
  obtain ⟨p, hp, hal, hab, hav, hatop, halt⟩ := to_big_integer_operand s hs
  obtain ⟨q, hq, hbl, hbb, hbv, hbtop, hblt⟩ := to_big_integer_operand t ht
  have hpq : q + 1 ≤ p := by omega
  have hvt := decimalValue_pos t ht h0
  obtain ⟨c, hc, hcl, hcb, hcv⟩ := complement_to_big_integer t ht q hq hvt
  have hpow : B ^ (q + 2) ≤ B ^ (p + 1) := Nat.pow_le_pow_right B_pos (by omega)
  have hB2 : 2 ≤ B := by decide
  have hP2 : 2 * B ^ (p + 1) ≤ B ^ (p + 2) := by
    rw [pow_succ B (p + 1), Nat.mul_comm]
    exact Nat.mul_le_mul_left _ hB2
  obtain ⟨sum, cout, hsl, hlt, hco, hval, hr⟩ := add_big_ints_spec (to_big_integer s) c hab hcb
    (p + 1) (by rw [hal, hcl]; omega)
  replace hval : limbsValue sum + B ^ (p + 2) * cout = decimalValue s + limbsValue c := by
    rw [← hav]; exact hval
  have hcc : cout = 0 ∨ cout = 1 := by omega
  have hv : limbsValue sum + decimalValue t = decimalValue s + B ^ (q + 2) := by
    rcases hcc with h0' | h1'
    · rw [h0'] at hval; omega
    · rw [h1'] at hval; omega
  have hsub : subtract_big_ints (to_big_integer s) (to_big_integer t)
      = some (if sum.getD (p + 1) 0 = 1 then sum ++ [0] else sum) := by
    unfold subtract_big_ints
    rw [hc, Option.some_bind, hr]
  have hk : (t.length + 17) / 18 + 1 = q + 2 := by omega
  rw [hsub, hk]
  rcases top_limb_le_one sum p hsl hlt (by omega) with htop | htop
  · rw [if_neg (by omega)]
    refine ⟨sum, rfl, (wellFormed_iff sum p hsl).mpr ⟨hlt, Or.inl htop⟩, ?_, hbl, by omega⟩
    rw [getLast?_eq_getD sum (p + 1) hsl, htop]
  · rw [if_pos htop]
    have hlen' : (sum ++ [0]).length = (p + 1) + 2 := by simp [hsl]
    have htop' := getD_append_last sum 0 (p + 2) hsl
    refine ⟨sum ++ [0], rfl,
      (wellFormed_iff _ (p + 1) hlen').mpr ⟨mem_append_zero sum hlt, Or.inl htop'⟩, by simp,
      hbl, ?_⟩
    rw [limbsValue_append]
    simp only [Nat.mul_zero, Nat.add_zero]
    omega

/-! ## The write of the growth branch and the format string -/

theorem sprintf_format_str_overrun : sprintf_format_str 7 MAGNITUDE = none := by decide

/-- With `MAGNITUDE = 18` the `sprintf` into `format_str` does not fit, whatever
the big integer printed. -/
theorem print_big_int_checked_none (b : List Nat) : print_big_int_checked b = none := by
  unfold print_big_int_checked
  split
  · rfl
  · rename_i sign _
    rw [sprintf_format_str_overrun]
    cases (if sign ≠ 0 then (complement_big_int_checked b).map (fun c => (c, ['-']))
      else some (b, ([] : List Char))) with
    | none => rfl
    | some r =>
      simp only [Option.some_bind, Option.none_bind]
      split <;> rfl

/-! ## The claims -/

/-- C1: `print_big_int` cannot render `to_big_integer("0")`, nor any other big
integer: the format `%018llu` it builds with `sprintf` has seven characters,
eight bytes with the NUL, and `format_str` is declared `char format_str[7]`, so
every call writes outside the array (with the testing value `MAGNITUDE = 3`
the format fits exactly).  The text handed to `printf` is the string parsed. -/
theorem print_big_int_format_overrun :
    Canonical "0".toList ∧ to_big_integer "0".toList = [0, 0] ∧
    [Char.ofNat 37, '0'] ++ Nat.toDigits 10 MAGNITUDE ++ ['l', 'l', 'u'] = "%018llu".toList ∧
    "%018llu".toList.length + 1 = 8 ∧
    sprintf_format_str 7 MAGNITUDE = none ∧
    print_big_int_checked (to_big_integer "0".toList) = none ∧
    (∀ b : List Nat, print_big_int_checked b = none) ∧
    sprintf_format_str 7 3 = some "%03llu".toList ∧
    print_big_int (to_big_integer "0".toList) = some ("0".toList ++ [Char.ofNat 10]) :=
  ⟨by decide, by decide, by decide, by decide, by decide, by decide,
    print_big_int_checked_none, by decide, by decide⟩

/-- C2: adding `to_big_integer("999999999999999999")` and `to_big_integer("1")`,
the first example of the claim, takes the growth branch: the loop leaves
`sum = {0, 1}`, `realloc(sum, 3)` leaves room for no limb and the write
`sum[2] = 0` is outside the block, so no sum is there to print.  The same
holds for ninety digits `9` plus `1`. -/
theorem add_carry_growth_out_of_bounds :
    Canonical "999999999999999999".toList ∧ Canonical "1".toList ∧
    to_big_integer "999999999999999999".toList = [B - 1, 0] ∧
    to_big_integer "1".toList = [1, 0] ∧
    add_loop_checked [B - 1, 0] [1, 0] (power_of_ten MAGNITUDE) 2 0 0
      (malloc_limbs (2 * SIZEOF_LONG_LONG)) = some [0, 1] ∧
    store (realloc_limbs [0, 1] (2 + 1)) (2 + 1 - 1) 0 = none ∧
    add_big_ints_checked (to_big_integer "999999999999999999".toList)
      (to_big_integer "1".toList) = none ∧
    (add_big_ints_checked (to_big_integer "999999999999999999".toList)
      (to_big_integer "1".toList)).bind print_big_int_checked = none ∧
    Canonical (List.replicate 90 '9') ∧
    add_big_ints_checked (to_big_integer (List.replicate 90 '9'))
      (to_big_integer "1".toList) = none := by
  decide

/-- C3: for `s = "1000000000000000000"` and `t = "1"`, both canonical,
`print_big_int(subtract_big_ints(to_big_integer(s), to_big_integer(t)))` writes
`1000000000000000000999999999999999999`, not the difference
`999999999999999999`.  For `s = 10^36` and `t = "1"` every access of the
subtraction is within bounds and the limbs returned are `[B-1, B-1, 1, 0]`,
the integer `2 * 10^36 - 1`, not `10^36 - 1`. -/
theorem subtract_longer_minuend_wrong :
    Canonical "1000000000000000000".toList ∧ Canonical "1".toList ∧
    subtract_big_ints (to_big_integer "1000000000000000000".toList) (to_big_integer "1".toList)
      = some [B - 1, 0, 1, 0] ∧
    print_big_int [B - 1, 0, 1, 0]
      = some ("1000000000000000000999999999999999999".toList ++ [Char.ofNat 10]) ∧
    decimalValue "1000000000000000000".toList - decimalValue "1".toList
      = decimalValue "999999999999999999".toList ∧
    Canonical "1000000000000000000000000000000000000".toList ∧
    subtract_big_ints_checked (to_big_integer "1000000000000000000000000000000000000".toList)
      (to_big_integer "1".toList) = some [B - 1, B - 1, 1, 0] ∧
    subtract_big_ints (to_big_integer "1000000000000000000000000000000000000".toList)
      (to_big_integer "1".toList) = some [B - 1, B - 1, 1, 0] ∧
    limbsValue [B - 1, B - 1, 1, 0] = 2 * 10 ^ 36 - 1 ∧
    decimalValue "1000000000000000000000000000000000000".toList - decimalValue "1".toList
      = 10 ^ 36 - 1 ∧
    print_big_int [B - 1, B - 1, 1, 0]
      = some ("1999999999999999999999999999999999999".toList ++ [Char.ofNat 10]) := by
  decide

/-- C4: for every non-empty string `s` of decimal digits, limb `j` of
`to_big_integer(s)` (for `j` below the number of magnitude limbs) is the value
of the chunk of `s` that ends `18 * j` characters before its right edge and
holds the eighteen characters before that point, or fewer at the left edge;
every chunk is a non-empty digit string of at most eighteen characters; and
the sum of `limb_i * (10^18)^i` over the limbs is the integer `s` denotes. -/
theorem to_big_integer_value (s : List Char) (hne : s ≠ []) (hd : is_digit_sequence s = true) :
    (∀ j, j < (s.length + 17) / 18 →
      (to_big_integer s).getD j 0
        = decimalValue ((s.take (s.length - 18 * j)).drop (s.length - 18 * (j + 1))) ∧
      1 ≤ ((s.take (s.length - 18 * j)).drop (s.length - 18 * (j + 1))).length ∧
      ((s.take (s.length - 18 * j)).drop (s.length - 18 * (j + 1))).length ≤ 18 ∧
      is_digit_sequence ((s.take (s.length - 18 * j)).drop (s.length - 18 * (j + 1))) = true) ∧
    limbsValue (to_big_integer s) = decimalValue s := by
  have hpos : 0 < s.length := List.length_pos.mpr hne
  constructor
  · intro j hj
    refine ⟨?_, ?_, ?_, is_digit_sequence_chunk s hd _ _⟩
    · rw [to_big_integer_eq]
      have hlt : j < (to_big_integer_loop s ((s.length + 17) / 18) s.length).length := by
        rw [to_big_integer_loop_length]; exact hj
      have e : (to_big_integer_loop s ((s.length + 17) / 18) s.length ++ [0]).getD j 0
          = (to_big_integer_loop s ((s.length + 17) / 18) s.length).getD j 0 := by
        simp [List.getD_eq_getElem?_getD, List.getElem?_append_left hlt]
      rw [e, to_big_integer_loop_getD s _ _ j hj]
    · simp only [List.length_drop, List.length_take]; omega
    · simp only [List.length_drop, List.length_take]; omega
  · obtain ⟨mag, hm, _, _, hv⟩ := to_big_integer_parts s hd
    rw [hm, limbsValue_append, hv]
    simp

theorem to_big_integer_value_witness :
    "1234567890123456789012".toList ≠ [] ∧
    is_digit_sequence "1234567890123456789012".toList = true ∧
    (to_big_integer "1234567890123456789012".toList).getD 1 0 = 1234 ∧
    limbsValue (to_big_integer "1234567890123456789012".toList) = 1234567890123456789012 :=
  ⟨by decide, by decide,
    (((to_big_integer_value "1234567890123456789012".toList (by decide) (by decide)).1 1
      (by decide)).1).trans (by decide),
    ((to_big_integer_value "1234567890123456789012".toList (by decide) (by decide)).2).trans
      (by decide)⟩

/-- C5: for every non-empty string `s` of decimal digits, `to_big_integer(s)` is
a well-formed big integer of `ceil(len(s)/18)` magnitude limbs followed by one
sign limb equal to `0` (its length is `ceil(len(s)/18) + 1`), and every limb is
below `10^18`. -/
theorem to_big_integer_shape (s : List Char) (hne : s ≠ []) (hd : is_digit_sequence s = true) :
    WellFormed (to_big_integer s) ∧
    (to_big_integer s).length = (s.length + 17) / 18 + 1 ∧
    18 * ((s.length + 17) / 18 - 1) < s.length ∧ s.length ≤ 18 * ((s.length + 17) / 18) ∧
    (to_big_integer s).getLast? = some 0 ∧
    ∀ x ∈ to_big_integer s, x < 10 ^ 18 := by
  have hpos : 0 < s.length := List.length_pos.mpr hne
  obtain ⟨mag, hm, hlen, hb, _⟩ := to_big_integer_parts s hd
  have hall : ∀ x ∈ to_big_integer s, x < B := by
    rw [hm]; exact mem_append_zero mag hb
  have hlast : (to_big_integer s).getLast? = some 0 := by rw [hm]; simp
  have hl : (to_big_integer s).length = (s.length + 17) / 18 + 1 := by rw [hm]; simp [hlen]
  exact ⟨⟨by omega, hall, Or.inl hlast⟩, hl, by omega, by omega, hlast, hall⟩

theorem to_big_integer_shape_witness :
    "1234567890123456789012".toList ≠ [] ∧
    is_digit_sequence "1234567890123456789012".toList = true ∧
    WellFormed (to_big_integer "1234567890123456789012".toList) ∧
    (to_big_integer "1234567890123456789012".toList).length = 3 :=
  ⟨by decide, by decide,
    (to_big_integer_shape "1234567890123456789012".toList (by decide) (by decide)).1,
    (to_big_integer_shape "1234567890123456789012".toList (by decide) (by decide)).2.1⟩

/-- C6: two well-formed big integers, both obtained from the exported functions,
whose sum computed by `add_big_ints` ends in the limb `B - 2`: the growth test
only looks for the value `1`, so the sum of two negative operands of equal
length can leave a sign limb that is neither `0` nor `B - 1`. -/
theorem add_big_ints_sign_limb_broken :
    subtract_big_ints (to_big_integer "0".toList) (to_big_integer "999999999999999999".toList)
      = some [1, B - 1] ∧
    WellFormed [1, B - 1] ∧
    add_big_ints [1, B - 1] [1, B - 1] = some [2, B - 2] ∧
    ([2, B - 2] : List Nat).getLast? ≠ some 0 ∧
    ([2, B - 2] : List Nat).getLast? ≠ some (B - 1) := by
  decide

/-- C7: `[0, 0, B-1]` is a well-formed big integer, the integer `-B^2`; its
negation `B^2` needs one limb more, so `complement_big_int` ends in the growth
branch of `add_big_ints`: the loop leaves `sum = {0, 0, 1}`, `realloc(sum, 4)`
leaves room for no limb and the write `sum[3] = 0` is outside the block. -/
theorem complement_minimum_out_of_bounds :
    WellFormed [0, 0, B - 1] ∧
    signedValue [0, 0, B - 1] = -((B : Int) ^ 2) ∧
    ([0, 0, B - 1] : List Nat).map
        (fun x => ((power_of_ten MAGNITUDE + ULL - 1) % ULL + ULL - x) % ULL) = [B - 1, B - 1, 0] ∧
    add_loop_checked [B - 1, B - 1, 0] [1, 0] (power_of_ten MAGNITUDE) 3 0 0
      (malloc_limbs (3 * SIZEOF_LONG_LONG)) = some [0, 0, 1] ∧
    store (realloc_limbs [0, 0, 1] (3 + 1)) (3 + 1 - 1) 0 = none ∧
    complement_big_int_checked [0, 0, B - 1] = none := by
  decide

/-- C8: for the well-formed big integer `[0, B-1]`, the integer `-B`, the inner
negation already takes the growth branch of `add_big_ints` and writes outside
the block, also when `print_big_int` negates it; and for an operand such as
`[5, 0]`, whose two negations return `[5, 0]`, `print_big_int` writes the
format outside `format_str`. -/
theorem print_double_negation_out_of_bounds :
    WellFormed [0, B - 1] ∧
    complement_big_int_checked [0, B - 1] = none ∧
    (complement_big_int_checked [0, B - 1]).bind complement_big_int_checked = none ∧
    print_big_int_checked [0, B - 1] = none ∧
    WellFormed [5, 0] ∧
    complement_big_int_checked [5, 0] = some [B - 5, B - 1] ∧
    complement_big_int_checked [B - 5, B - 1] = some [5, 0] ∧
    sprintf_format_str 7 MAGNITUDE = none ∧
    print_big_int_checked [5, 0] = none := by
  decide

/-- C9: for `a = to_big_integer("1000000000000000000")`, a well-formed big
integer with two magnitude limbs, `print_big_int(subtract_big_ints(a, a))`
writes nineteen zeros, not `"0"`. -/
theorem subtract_self_prints_zeros :
    to_big_integer "1000000000000000000".toList = [0, 1, 0] ∧
    WellFormed [0, 1, 0] ∧
    subtract_big_ints [0, 1, 0] [0, 1, 0] = some [0, 0, 0] ∧
    print_big_int [0, 0, 0] = some ("0000000000000000000".toList ++ [Char.ofNat 10]) := by
  decide

/-- C10: for the well-formed big integers `[B-1, B-1, 0]` and `[1, 0]`, of
different lengths, the loop leaves `sum = {0, 0, 1}` in either order and the
growth branch writes `sum[3]` outside the block that `realloc(sum, 4)` leaves:
neither call returns a limb sequence. -/
theorem add_big_ints_growth_both_orders :
    WellFormed [B - 1, B - 1, 0] ∧ WellFormed [1, 0] ∧
    add_loop_checked [B - 1, B - 1, 0] [1, 0] (power_of_ten MAGNITUDE) 3 0 0
      (malloc_limbs (3 * SIZEOF_LONG_LONG)) = some [0, 0, 1] ∧
    add_loop_checked [1, 0] [B - 1, B - 1, 0] (power_of_ten MAGNITUDE) 3 0 0
      (malloc_limbs (3 * SIZEOF_LONG_LONG)) = some [0, 0, 1] ∧
    store (realloc_limbs [0, 0, 1] (3 + 1)) (3 + 1 - 1) 0 = none ∧
    add_big_ints_checked [B - 1, B - 1, 0] [1, 0] = none ∧
    add_big_ints_checked [1, 0] [B - 1, B - 1, 0] = none := by
  decide

/-- C11: for every well-formed big integer `a`, `add_big_ints(a, to_big_integer("0"))`
returns the limb sequence `a` itself (same length, no growth limb), with every
access within bounds; printing the sum is therefore printing `a`. -/
theorem add_big_ints_zero (a : List Nat) (h : WellFormed a) :
    add_big_ints a (to_big_integer "0".toList) = some a ∧
    add_big_ints_checked a (to_big_integer "0".toList) = some a ∧
    (add_big_ints_checked a (to_big_integer "0".toList)).bind print_big_int_checked
      = print_big_int_checked a := by
  obtain ⟨k, hl⟩ := wellFormed_length a h
  obtain ⟨hb, hs⟩ := (wellFormed_iff a k hl).mp h
  have hz : to_big_integer "0".toList = [0, 0] := by decide
  have hzb : ∀ x ∈ ([0, 0] : List Nat), x < B := by
    intro x hx
    simp at hx
    rw [hx]; exact B_pos
  have hmax : max a.length ([0, 0] : List Nat).length = (k + 1) + 1 := by simp [hl]
  obtain ⟨hlt, cout, hco, hval⟩ := add_loop_spec (k + 2) a [0, 0] 0 (by omega) (by simp) hb hzb
    (Nat.zero_le _)
  have hlen := add_loop_length a [0, 0] B (k + 2) 0 0
  have hv0 : limbsValue ([0, 0] : List Nat) = 0 := by simp [limbsValue]
  have halt := limbsValue_lt a hb
  rw [hl] at halt
  rw [hv0] at hval
  have hsa : add_loop a [0, 0] B (k + 2) 0 0 = a := by
    apply limbsValue_inj _ a (by rw [hlen, hl]) hlt hb
    have hc : cout = 0 ∨ cout = 1 := by omega
    rcases hc with h0 | h1
    · rw [h0] at hval; omega
    · rw [h1] at hval; omega
  have hB1 : (1 : Nat) < B - 1 := by decide
  have htop : a.getD (k + 1) 0 ≠ 1 := by rcases hs with h0 | h1 <;> omega
  have hadd : add_big_ints a [0, 0] = some a := by
    rw [add_big_ints_eq a [0, 0] (by omega), hmax]
    show some (if (add_loop a [0, 0] B (k + 2) 0 0).getD (k + 1) 0 = 1
      then add_loop a [0, 0] B (k + 2) 0 0 ++ [0] else add_loop a [0, 0] B (k + 2) 0 0) = some a
    rw [hsa, if_neg htop]
  have hchk : add_big_ints_checked a [0, 0] = some a := by
    rw [add_big_ints_checked_eq a [0, 0] (k + 1) hmax, power_of_ten_MAGNITUDE]
    show (if (add_loop a [0, 0] B (k + 2) 0 0).getD (k + 1) 0 = 1 then none
      else add_big_ints a [0, 0]) = some a
    rw [hsa, if_neg htop, hadd]
  rw [hz]
  exact ⟨hadd, hchk, by rw [hchk]; rfl⟩

theorem add_big_ints_zero_witness :
    WellFormed [7, 2, B - 1] ∧
    add_big_ints [7, 2, B - 1] (to_big_integer "0".toList) = some [7, 2, B - 1] ∧
    add_big_ints_checked [7, 2, B - 1] (to_big_integer "0".toList) = some [7, 2, B - 1] ∧
    (add_big_ints_checked [7, 2, B - 1] (to_big_integer "0".toList)).bind print_big_int_checked
      = print_big_int_checked [7, 2, B - 1] :=
  ⟨by decide, add_big_ints_zero [7, 2, B - 1] (by decide)⟩

/-- C12, as stated, fails: `[0, 0]` is a well-formed non-negative big integer and
`complement_big_int` returns `[0, 0]`, whose sign limb is `0`. -/
theorem complement_zero_keeps_sign :
    ¬ ∀ a : List Nat, WellFormed a → a.getLast? = some 0 →
        ∃ c, complement_big_int a = some c ∧ c.getLast? = some (B - 1) := by
  intro hall
  obtain ⟨c, hc, hs⟩ := hall [0, 0] (by decide) (by decide)
  have h0 : complement_big_int [0, 0] = some [0, 0] := by decide
  rw [h0] at hc
  have hc' : c = [0, 0] := (Option.some.inj hc).symm
  subst hc'
  revert hs
  decide

/-- C12, amended: for every well-formed non-negative big integer `a` (sign limb
`0`), the sign limb of `complement_big_int(a)` is `B - 1` when some limb of `a`
is not zero, and `complement_big_int(a)` is `a` itself when all limbs are
zero. -/
theorem complement_sign_of_nonzero (a : List Nat) (h : WellFormed a) (hs : a.getLast? = some 0) :
    ((∃ x ∈ a, x ≠ 0) → ∃ c, complement_big_int a = some c ∧ c.getLast? = some (B - 1)) ∧
    ((∀ x ∈ a, x = 0) → complement_big_int a = some a) := by
  obtain ⟨k, hl⟩ := wellFormed_length a h
  obtain ⟨hb, hs'⟩ := (wellFormed_iff a k hl).mp h
  have htop : a.getD (k + 1) 0 = 0 := by
    rw [getLast?_eq_getD a (k + 1) hl] at hs
    exact Option.some.inj hs
  have hlt := (sign_bounds a k hl hb).1 htop
  have hB1 : (1 : Nat) < B - 1 := by decide
  have hQ : B ^ (k + 1) ≤ (B - 1) * B ^ (k + 1) := Nat.le_mul_of_pos_left _ (by omega)
  obtain ⟨c, hc, hcl, hcb, hcv, hct⟩ := complement_regular a k hl hb hs' (by omega)
  constructor
  · intro hnz
    have hv : limbsValue a ≠ 0 := by
      intro hv0
      obtain ⟨x, hx, hx0⟩ := hnz
      exact hx0 ((limbsValue_eq_zero_iff a).mp hv0 x hx)
    rw [if_pos ⟨htop, hv⟩] at hct
    exact ⟨c, hc, by rw [getLast?_eq_getD c (k + 1) hcl, hct]⟩
  · intro hz
    have hv : limbsValue a = 0 := (limbsValue_eq_zero_iff a).mpr hz
    have hclt := limbsValue_lt c hcb
    rw [hcl] at hclt
    have hca : c = a := limbsValue_inj c a (by rw [hcl, hl]) hcb hb (by omega)
    rw [hca] at hc
    exact hc

theorem complement_sign_of_nonzero_witness :
    WellFormed [5, 0] ∧ ([5, 0] : List Nat).getLast? = some 0 ∧ (∃ x ∈ ([5, 0] : List Nat), x ≠ 0) ∧
    ∃ c, complement_big_int [5, 0] = some c ∧ c.getLast? = some (B - 1) :=
  ⟨by decide, by decide, ⟨5, by decide, by decide⟩,
    (complement_sign_of_nonzero [5, 0] (by decide) (by decide)).1 ⟨5, by decide, by decide⟩⟩

/-- C14: for every line that is not empty and holds digits only,
`get_digit_sequence` returns a canonical decimal string (not empty, digits
only, no leading zero unless it is exactly `"0"`) that denotes the same
integer as the line; a line of zeros only gives `"0"`. -/
theorem get_digit_sequence_canonical (body : List Char) (hne : body ≠ [])
    (hd : is_digit_sequence body = true) :
    (∃ s, get_digit_sequence (some (body ++ [Char.ofNat 10])) = Except.ok s ∧ Canonical s ∧
      decimalValue s = decimalValue body) ∧
    ((∀ c, c ∈ body → c = '0') →
      get_digit_sequence (some (body ++ [Char.ofNat 10])) = Except.ok ['0']) := by
  obtain ⟨z, hz, hsplit, hhead⟩ := skip_zeros_spec body
  rw [get_digit_sequence_line body hne, cstring_of_digits body hd, if_pos hd]
  by_cases hs : skip_zeros body = []
  · rw [if_pos hs, if_neg hne]
    have hbz : body = z := by rw [hs, List.append_nil] at hsplit; exact hsplit
    have hall : ∀ c ∈ body, c = '0' := by rw [hbz]; exact hz
    have hlast := all_zeros_last body hne hall
    have hval : decimalValue body = 0 := by
      have := decimalValue_zeros body [] hall
      rw [List.append_nil] at this
      rw [this]; rfl
    rw [hlast]
    refine ⟨⟨['0'], rfl, by decide, ?_⟩, fun _ => rfl⟩
    rw [hval]; rfl
  · rw [if_neg hs]
    have hdig : is_digit_sequence (skip_zeros body) = true := by
      have := hd
      rw [hsplit, is_digit_sequence_append] at this
      exact this.2
    have hval : decimalValue (skip_zeros body) = decimalValue body := by
      conv_rhs => rw [hsplit]
      exact (decimalValue_zeros z (skip_zeros body) hz).symm
    refine ⟨⟨skip_zeros body, rfl, ⟨hs, hdig, fun h => absurd h hhead⟩, hval⟩, ?_⟩
    intro hall
    exfalso
    cases hsk : skip_zeros body with
    | nil => exact hs hsk
    | cons c cs =>
      have hc : c ∈ body := by
        rw [hsplit, hsk]
        exact List.mem_append_right _ (List.mem_cons_self _ _)
      rw [hsk] at hhead
      exact hhead (by rw [hall c hc]; rfl)

theorem get_digit_sequence_canonical_witness :
    "00042".toList ≠ [] ∧ is_digit_sequence "00042".toList = true ∧
    get_digit_sequence (some ("00042".toList ++ [Char.ofNat 10])) = Except.ok "42".toList ∧
    get_digit_sequence (some ("0000".toList ++ [Char.ofNat 10])) = Except.ok "0".toList ∧
    ∃ s, get_digit_sequence (some ("00042".toList ++ [Char.ofNat 10])) = Except.ok s ∧
      Canonical s ∧ decimalValue s = decimalValue "00042".toList :=
  ⟨by decide, by decide, rfl,
    (get_digit_sequence_canonical "0000".toList (by decide) (by decide)).2 (by decide),
    (get_digit_sequence_canonical "00042".toList (by decide) (by decide)).1⟩

/-- C15: with every array access checked, adding the well-formed operands
`to_big_integer("999999999999999999")` and `to_big_integer("1")` takes the
growth branch of `add_big_ints`: the loop leaves `sum = {0, 1}`, the block is
resized with `realloc(sum, 3)`, three bytes, which has room for no limb, and
the write `sum[2] = 0` is outside it.  The same happens in
`complement_big_int` and `subtract_big_ints`, which end in `add_big_ints`. -/
theorem add_big_ints_checked_out_of_bounds :
    to_big_integer "999999999999999999".toList = [999999999999999999, 0] ∧
    to_big_integer "1".toList = [1, 0] ∧
    WellFormed [999999999999999999, 0] ∧ WellFormed [1, 0] ∧
    add_loop_checked [999999999999999999, 0] [1, 0] (power_of_ten MAGNITUDE) 2 0 0
      (malloc_limbs (2 * SIZEOF_LONG_LONG)) = some [0, 1] ∧
    realloc_limbs [0, 1] 3 = [] ∧
    store (realloc_limbs [0, 1] 3) 2 0 = none ∧
    add_big_ints_checked [999999999999999999, 0] [1, 0] = none ∧
    WellFormed [0, B - 1] ∧ complement_big_int_checked [0, B - 1] = none ∧
    subtract_big_ints_checked (to_big_integer "1000000000000000000".toList)
      (to_big_integer "1".toList) = none := by
  decide

/-- C16: `power_of_ten(18)`, computed modulo `2^64`, is `10^18`; for limbs `x`, `y`
below `10^18` and a carry of `0` or `1` the sum `x + y + carry` is below `2^64`,
so the reduction modulo `2^64` in the loop of `add_big_ints` changes nothing and
one step of the loop works on the exact sum; and `18` is the largest `k` with
`(10^k - 1) + (10^k - 1) < 2^64`. -/
theorem limb_addition_exact (x y carry : Nat) (hx : x < 10 ^ 18) (hy : y < 10 ^ 18)
    (hc : carry ≤ 1) :
    power_of_ten 18 = 10 ^ 18 ∧
    x + y + carry < 2 ^ 64 ∧
    (x + y + carry) % ULL = x + y + carry ∧
    (∀ (op1 op2 : List Nat) (k i : Nat), op1.getD i 0 = x → op2.getD i 0 = y →
      add_loop op1 op2 (power_of_ten MAGNITUDE) (k + 1) i carry
        = if x + y + carry ≥ 10 ^ 18
          then (x + y + carry - 10 ^ 18) :: add_loop op1 op2 (power_of_ten MAGNITUDE) k (i + 1) 1
          else (x + y + carry) :: add_loop op1 op2 (power_of_ten MAGNITUDE) k (i + 1) 0) ∧
    (∀ k : Nat, (10 ^ k - 1) + (10 ^ k - 1) < 2 ^ 64 ↔ k ≤ 18) := by
  have hlt : x + y + carry < 2 ^ 64 := by
    have : (2 : Nat) * 10 ^ 18 < 2 ^ 64 := by decide
    omega
  have hmod : (x + y + carry) % ULL = x + y + carry := Nat.mod_eq_of_lt hlt
  refine ⟨by decide, hlt, hmod, ?_, ?_⟩
  · intro op1 op2 k i h1 h2
    have hp : power_of_ten MAGNITUDE = 10 ^ 18 := by decide
    rw [add_loop_succ, h1, h2, hmod, hp]
  · intro k
    constructor
    · intro h
      by_contra hk
      have h19 : (10 : Nat) ^ 19 ≤ 10 ^ k := Nat.pow_le_pow_right (by decide) (by omega)
      have : (2 : Nat) ^ 64 < 10 ^ 19 + 10 ^ 19 - 2 := by decide
      omega
    · intro hk
      have h18 : (10 : Nat) ^ k ≤ 10 ^ 18 := Nat.pow_le_pow_right (by decide) hk
      have : (2 : Nat) * 10 ^ 18 < 2 ^ 64 := by decide
      omega

theorem limb_addition_exact_witness :
    (999999999999999999 : Nat) < 10 ^ 18 ∧ (1 : Nat) ≤ 1 ∧
    power_of_ten 18 = 10 ^ 18 ∧
    999999999999999999 + 999999999999999999 + 1 < 2 ^ 64 ∧
    ((10 ^ 19 - 1) + (10 ^ 19 - 1) < 2 ^ 64 ↔ 19 ≤ 18) :=
  ⟨by decide, by decide,
    (limb_addition_exact 999999999999999999 999999999999999999 1 (by decide) (by decide)
      (by decide)).1,
    (limb_addition_exact 999999999999999999 999999999999999999 1 (by decide) (by decide)
      (by decide)).2.1,
    (limb_addition_exact 999999999999999999 999999999999999999 1 (by decide) (by decide)
      (by decide)).2.2.2.2 19⟩

/-- C17: for `a = [B-1, 0]` and `b = [1]`, non-empty with limbs in `[0, B)` and
`m = 2`, the position-wise sums are `0` and `1`, and the loop writes them; the
limb at position `m - 1` is `1`, so the growth branch runs, and its write
`sum[2] = 0` is outside the block that `realloc(sum, 3)` leaves: no array of
length `m + 1` with a final limb `0` is returned. -/
theorem add_big_ints_growth_rule_out_of_bounds :
    ([B - 1, 0] : List Nat) ≠ [] ∧ ([1] : List Nat) ≠ [] ∧
    (∀ x ∈ ([B - 1, 0] : List Nat), x < B) ∧ (∀ x ∈ ([1] : List Nat), x < B) ∧
    max ([B - 1, 0] : List Nat).length ([1] : List Nat).length = 2 ∧
    sumLimb [B - 1, 0] [1] 0 = 0 ∧ sumLimb [B - 1, 0] [1] 1 = 1 ∧
    add_loop_checked [B - 1, 0] [1] (power_of_ten MAGNITUDE) 2 0 0
      (malloc_limbs (2 * SIZEOF_LONG_LONG)) = some [0, 1] ∧
    store (realloc_limbs [0, 1] (2 + 1)) (2 + 1 - 1) 0 = none ∧
    add_big_ints_checked [B - 1, 0] [1] = none := by
  decide

/-- C18: for the limbs of ninety digits `9` and of `1`, all in `[0, B)`,
`add_big_ints` takes the growth branch and writes `sum[6]` outside the block
that `realloc(sum, 7)` leaves, so the array it returns is not one of limbs in
`[0, B)`; `complement_big_int` of `[0, 0, 0, 0, 0, B-1]` ends the same way. -/
theorem limb_range_growth_out_of_bounds :
    to_big_integer (List.replicate 90 '9') = [B - 1, B - 1, B - 1, B - 1, B - 1, 0] ∧
    (∀ x ∈ ([B - 1, B - 1, B - 1, B - 1, B - 1, 0] : List Nat), x < B) ∧
    (∀ x ∈ ([1, 0] : List Nat), x < B) ∧
    add_loop_checked [B - 1, B - 1, B - 1, B - 1, B - 1, 0] [1, 0] (power_of_ten MAGNITUDE)
      6 0 0 (malloc_limbs (6 * SIZEOF_LONG_LONG)) = some [0, 0, 0, 0, 0, 1] ∧
    realloc_limbs [0, 0, 0, 0, 0, 1] (6 + 1) = [] ∧
    store (realloc_limbs [0, 0, 0, 0, 0, 1] (6 + 1)) (6 + 1 - 1) 0 = none ∧
    add_big_ints_checked [B - 1, B - 1, B - 1, B - 1, B - 1, 0] [1, 0] = none ∧
    (∀ x ∈ ([0, 0, 0, 0, 0, B - 1] : List Nat), x < B) ∧
    complement_big_int_checked [0, 0, 0, 0, 0, B - 1] = none := by
  decide

/-- C19: for all canonical non-negative decimal strings `s` and `t` such that
`s` needs no more limbs than `t`, `subtract_big_ints(to_big_integer(s),
to_big_integer(t))` returns a well-formed big integer whose signed value is
the integer `s - t`. -/
theorem subtract_big_ints_exact (s t : List Char) (hs : Canonical s) (ht : Canonical t)
    (hlen : (s.length + 17) / 18 ≤ (t.length + 17) / 18) :
    ∃ r, subtract_big_ints (to_big_integer s) (to_big_integer t) = some r ∧ WellFormed r ∧
      signedValue r = (decimalValue s : Int) - (decimalValue t : Int) := by
  obtain ⟨p, hp, hal, hab, hav, hatop, halt⟩ := to_big_integer_operand s hs
  obtain ⟨q, hq, hbl, hbb, hbv, hbtop, hblt⟩ := to_big_integer_operand t ht
  have hpq : p ≤ q := by omega
  have hP : 0 < B ^ (q + 1) := pow_pos B_pos _
  have hpow : B ^ (p + 1) ≤ B ^ (q + 1) := Nat.pow_le_pow_right B_pos (by omega)
  have hsplit := pow_split q
  have hB1 : (1 : Nat) < B - 1 := by decide
  have hQ : B ^ (q + 1) ≤ (B - 1) * B ^ (q + 1) := Nat.le_mul_of_pos_left _ (by omega)
  -- the negated subtrahend
  have hcomp : ∃ c, complement_big_int (to_big_integer t) = some c ∧ c.length = q + 2 ∧
      (∀ x ∈ c, x < B) ∧
      (limbsValue c + decimalValue t = B ^ (q + 2) ∨ (limbsValue c = 0 ∧ decimalValue t = 0)) := by
    obtain ⟨c, hc, hcl, hcb, hcv, _⟩ := complement_regular (to_big_integer t) q hbl hbb
      (Or.inl hbtop) (by rw [hbv]; omega)
    rw [hbv] at hcv
    exact ⟨c, hc, hcl, hcb, hcv⟩
  obtain ⟨c, hc, hcl, hcb, hcv⟩ := hcomp
  obtain ⟨sum, cout, hsl, hlt, hco, hval, hr⟩ := add_big_ints_spec (to_big_integer s) c hab hcb
    (q + 1) (by rw [hal, hcl]; omega)
  replace hval : limbsValue sum + B ^ (q + 2) * cout = decimalValue s + limbsValue c := by
    rw [← hav]; exact hval
  have hslt : limbsValue sum < B ^ (q + 2) := by
    have := limbsValue_lt sum hlt
    rwa [hsl] at this
  have hclt := limbsValue_lt c hcb
  rw [hcl] at hclt
  have hcc : cout = 0 ∨ cout = 1 := by omega
  have hsub : subtract_big_ints (to_big_integer s) (to_big_integer t)
      = some (if sum.getD (q + 1) 0 = 1 then sum ++ [0] else sum) := by
    unfold subtract_big_ints
    rw [hc, Option.some_bind, hr]
  rw [hsub]
  by_cases hge : decimalValue t ≤ decimalValue s
  · -- the difference is not negative: the sign limb is 0
    have hv : limbsValue sum = decimalValue s - decimalValue t := by
      rcases hcv with h1 | h2
      · rcases hcc with h0 | h1'
        · rw [h0] at hval; omega
        · rw [h1'] at hval; omega
      · rcases hcc with h0 | h1'
        · rw [h0] at hval; omega
        · rw [h1'] at hval; omega
    have htop := top_limb_zero sum q hsl hlt (by omega)
    rw [if_neg (by omega)]
    refine ⟨sum, rfl, (wellFormed_iff sum q hsl).mpr ⟨hlt, Or.inl htop⟩, ?_⟩
    rw [signedValue_of_top sum q hsl, htop, if_neg (by omega), hv]
    omega
  · -- the difference is negative: the sign limb is B - 1
    have hv : limbsValue sum + decimalValue t = B ^ (q + 2) + decimalValue s := by
      rcases hcv with h1 | h2
      · rcases hcc with h0 | h1'
        · rw [h0] at hval; omega
        · rw [h1'] at hval; omega
      · omega
    have htop := top_limb_neg sum q hsl hlt (by omega)
    rw [if_neg (by omega)]
    refine ⟨sum, rfl, (wellFormed_iff sum q hsl).mpr ⟨hlt, Or.inr htop⟩, ?_⟩
    rw [signedValue_of_top sum q hsl, htop, if_pos rfl]
    omega

theorem subtract_big_ints_exact_witness :
    Canonical "5".toList ∧ Canonical "10".toList ∧
    ("5".toList.length + 17) / 18 ≤ ("10".toList.length + 17) / 18 ∧
    ∃ r, subtract_big_ints (to_big_integer "5".toList) (to_big_integer "10".toList) = some r ∧
      WellFormed r ∧
      signedValue r = (decimalValue "5".toList : Int) - (decimalValue "10".toList : Int) :=
  ⟨by decide, by decide, by decide,
    subtract_big_ints_exact "5".toList "10".toList (by decide) (by decide) (by decide)⟩

/-- C20: for `s = "1000000000000000000"` and `t = "1"`, the example of the
claim, the negated subtrahend is `[B-1, B-1]` and the loop leaves
`sum = {B-1, 0, 1}`: the limb at the top is `1`, the growth branch runs and
its write `sum[3] = 0` is outside the block that `realloc(sum, 4)` leaves, so
the limbs `[B-1, 0, 1, 0]` are not returned.  The same happens with five
magnitude limbs against four. -/
theorem subtract_zero_extension_out_of_bounds :
    Canonical "1000000000000000000".toList ∧ Canonical "1".toList ∧ "1".toList ≠ ['0'] ∧
    ("1".toList.length + 17) / 18 < ("1000000000000000000".toList.length + 17) / 18 ∧
    to_big_integer "1000000000000000000".toList = [0, 1, 0] ∧
    complement_big_int_checked (to_big_integer "1".toList) = some [B - 1, B - 1] ∧
    add_loop_checked [0, 1, 0] [B - 1, B - 1] (power_of_ten MAGNITUDE) 3 0 0
      (malloc_limbs (3 * SIZEOF_LONG_LONG)) = some [B - 1, 0, 1] ∧
    store (realloc_limbs [B - 1, 0, 1] (3 + 1)) (3 + 1 - 1) 0 = none ∧
    subtract_big_ints_checked (to_big_integer "1000000000000000000".toList)
      (to_big_integer "1".toList) = none ∧
    Canonical ('1' :: List.replicate 72 '0') ∧ Canonical ('1' :: List.replicate 54 '0') ∧
    (to_big_integer ('1' :: List.replicate 72 '0')).length = 6 ∧
    (to_big_integer ('1' :: List.replicate 54 '0')).length = 5 ∧
    subtract_big_ints_checked (to_big_integer ('1' :: List.replicate 72 '0'))
      (to_big_integer ('1' :: List.replicate 54 '0')) = none := by
  decide

end Strmath
